import Mathlib

/-!
Verification of the balance/settlement core of the `obscura` expense-sharing
application.

The development shallowly embeds two components:

* the Balance Aggregator (`getBalance`), from the `eventRouter.getBalance`
  query: it reduces a list of expenses (each with a payer and a list of
  splits) to one balance record per participant, accumulated in a string-keyed
  record (modelled as an insertion-ordered association list, matching the
  JavaScript `Record<string, …>` semantics of in-place update of an existing
  key and append of a fresh key);

* the Settlement Planner (`eventBalanceSettlements`), from the settlement
  loop of the `EventBalanceView` component: it filters creditors
  (netBalance > 0.01) and debtors (netBalance < -0.01), sorts them with the
  stable JavaScript `Array.sort` (modelled by the stable `List.insertionSort`),
  and runs the greedy two-cursor matching loop.  The JavaScript loop mutates
  `debtor.netBalance` in place while iterating; the embedding threads the
  debtor array and the debtor cursor explicitly through `PlanState`.  The
  inner `while` loop is written with a fuel parameter; the source loop
  advances the debtor cursor on every iteration except possibly its last one
  (each iteration either fully absorbs the current debtor, advancing the
  cursor, or exhausts the creditor's remaining credit, ending the loop), so a
  fuel of `debtors.length + 1` per creditor is never exhausted; the lemma
  `innerLoop_fuel_irrelevant` below proves that any fuel of at least
  `debtors.length - di + 1` yields the same result, so the embedding computes
  exactly what the source loop computes.

Currency values are modelled by `ℚ`; the source computes with IEEE doubles
but every claim under study is stated at the 0.01-tolerance level, and the
spec itself mandates decimal arithmetic, so exact rational arithmetic is the
faithful idealisation (string-encoded decimal amounts read with `parseFloat`
are modelled as the rationals they denote).
-/

namespace Obscura

/-- The hardcoded tolerance constant `0.01` of the source. -/
def tol : ℚ := 1/100

/-- A user object as selected by the queries: `{ id, name, avatarUrl }`. -/
structure User where
  id : String
  name : String
  avatarUrl : Option String
deriving DecidableEq

/-- One split row joined with its user. -/
structure SplitRec where
  user : User
  share : ℚ
deriving DecidableEq

/-- One expense row joined with its payer and its splits. -/
structure Expense where
  paidBy : User
  amount : ℚ
  splits : List SplitRec
deriving DecidableEq

/-- The per-user accumulator record of `eventRouter.getBalance`:
`{ user, totalPaid, totalOwed, netBalance }`; `user` is initialised to
`null` (here `none`) and overwritten during the accumulation pass. -/
structure BalanceRec where
  user : Option User
  totalPaid : ℚ
  totalOwed : ℚ
  netBalance : ℚ
deriving DecidableEq

/-- Key lookup in the insertion-ordered association list modelling the
JavaScript `balances` record (`balances[u]` read). -/
def lookupB : List (String × BalanceRec) → String → Option BalanceRec
  | [], _ => none
  | (k, v) :: m, u => if k = u then some v else lookupB m u

/-- Key assignment in the association list (`balances[u] = v` write): an
existing key is updated in place, a fresh key is appended at the end,
matching JavaScript object-key insertion order. -/
def setB : List (String × BalanceRec) → String → BalanceRec → List (String × BalanceRec)
  | [], u, v => [(u, v)]
  | (k, w) :: m, u, v => if k = u then (k, v) :: m else (k, w) :: setB m u v

/-- `Set.add` on the insertion-ordered id set `allUserIds`. -/
def insertId (l : List String) (u : String) : List String :=
  if u ∈ l then l else l ++ [u]

/-- Ids contributed by one expense: first the payer, then each split user,
in source order. -/
def expenseIds (l : List String) (e : Expense) : List String :=
  e.splits.foldl (fun acc s => insertId acc s.user.id) (insertId l e.paidBy.id)

/-- The `allUserIds` set: every payer and split-participant id, deduplicated
in first-appearance order. -/
def collectIds (es : List Expense) : List String :=
  es.foldl expenseIds []

/-- The payer update of one expense:
`balances[paidBy].totalPaid += amount; balances[paidBy].user = expense.paidBy;`
(together with the defensive creation of a missing entry). -/
def bumpPaid (m : List (String × BalanceRec)) (u : User) (amt : ℚ) :
    List (String × BalanceRec) :=
  match lookupB m u.id with
  | some b => setB m u.id { b with totalPaid := b.totalPaid + amt, user := some u }
  | none => setB m u.id { user := some u, totalPaid := amt, totalOwed := 0, netBalance := 0 }

/-- The split update:
`balances[userId].totalOwed += share; balances[userId].user = split.user;`
(together with the defensive creation of a missing entry). -/
def bumpOwed (m : List (String × BalanceRec)) (u : User) (share : ℚ) :
    List (String × BalanceRec) :=
  match lookupB m u.id with
  | some b => setB m u.id { b with totalOwed := b.totalOwed + share, user := some u }
  | none => setB m u.id { user := some u, totalPaid := 0, totalOwed := share, netBalance := 0 }

/-- Accumulation of one expense: the payer update followed by one split
update per split, in order. -/
def applyExpense (m : List (String × BalanceRec)) (e : Expense) :
    List (String × BalanceRec) :=
  e.splits.foldl (fun acc s => bumpOwed acc s.user s.share) (bumpPaid m e.paidBy e.amount)

/-- The `balances` record after initialisation of every id of `allUserIds`
with `{ user: null, totalPaid: 0, totalOwed: 0, netBalance: 0 }` and the full
accumulation pass over the expenses. -/
def aggBalances (es : List Expense) : List (String × BalanceRec) :=
  es.foldl applyExpense ((collectIds es).map (fun u => (u, ⟨none, 0, 0, 0⟩)))

/-- The Balance Aggregator, `eventRouter.getBalance`: the final pass writes
`netBalance = totalPaid - totalOwed` into every record and `Object.values`
returns the records in key-insertion order. -/
def getBalance (es : List Expense) : List BalanceRec :=
  (aggBalances es).map (fun p => { p.2 with netBalance := p.2.totalPaid - p.2.totalOwed })

/-! Planner-side data model.  The planner of `EventBalanceView` consumes the
balance array; only `user.id` (for settlement endpoints) and the three
numeric fields are relevant, so a planner balance carries the user id
directly. -/

/-- One element of the `balance` array consumed by `EventBalanceView`. -/
structure Balance where
  userId : String
  totalPaid : ℚ
  totalOwed : ℚ
  netBalance : ℚ
deriving DecidableEq

/-- One emitted settlement `{ from, to, amount }`, with the two records
identified by their user ids. -/
structure Settlement where
  fromUser : String
  toUser : String
  amount : ℚ
deriving DecidableEq

/-- `balance.filter(b => b.netBalance > 0.01).sort((a, b) => b.netBalance - a.netBalance)`:
creditors, sorted descending by net balance (stable sort). -/
def creditorsOf (bs : List Balance) : List Balance :=
  List.insertionSort (fun a b => b.netBalance ≤ a.netBalance)
    (bs.filter (fun b => tol < b.netBalance))

/-- `balance.filter(b => b.netBalance < -0.01).sort((a, b) => a.netBalance - b.netBalance)`:
debtors, sorted ascending by net balance (stable sort). -/
def debtorsOf (bs : List Balance) : List Balance :=
  List.insertionSort (fun a b => a.netBalance ≤ b.netBalance)
    (bs.filter (fun b => b.netBalance < -tol))

/-- The mutable state threaded through the settlement loops: the debtor
array (whose records the source mutates in place), the debtor cursor
`debtorIndex`, and the settlements accumulated so far. -/
structure PlanState where
  debtors : List Balance
  di : ℕ
  settlements : List Settlement
deriving DecidableEq

/-- The amount settled by one iteration of the inner loop:
`Math.min(remaining, Math.abs(debtor.netBalance))` for the current debtor. -/
def stepAmt (remaining : ℚ) (s : PlanState) (h : s.di < s.debtors.length) : ℚ :=
  min remaining |(s.debtors.get ⟨s.di, h⟩).netBalance|

/-- One iteration of the inner loop body: push the settlement, add the
settled amount to the current debtor's net balance in place, and advance
`debtorIndex` when that debtor's balance is now within `0.01` of zero. -/
def stepState (c : Balance) (remaining : ℚ) (s : PlanState)
    (h : s.di < s.debtors.length) : PlanState :=
  let debtor := s.debtors.get ⟨s.di, h⟩
  let amt := stepAmt remaining s h
  let debtor' : Balance := { debtor with netBalance := debtor.netBalance + amt }
  { debtors := s.debtors.set s.di debtor'
    di := if |debtor'.netBalance| < tol then s.di + 1 else s.di
    settlements := s.settlements ++ [⟨debtor.userId, c.userId, amt⟩] }

/-- The inner `while (remaining > 0.01 && debtorIndex < debtors.length)` loop
of the settlement algorithm, for one creditor `c`.  `fuel` bounds the number
of iterations; `debtors.length - di + 1` is always sufficient, because every
iteration either advances the cursor or zeroes `remaining` (see
`innerLoop_fuel_irrelevant`), so the fuel of `debtors.length + 1` supplied by
`outerLoop` reproduces the source loop exactly. -/
def innerLoop (c : Balance) : ℕ → ℚ → PlanState → PlanState
  | 0, _, s => s
  | fuel + 1, remaining, s =>
    if h : tol < remaining ∧ s.di < s.debtors.length then
      innerLoop c fuel (remaining - stepAmt remaining s h.2) (stepState c remaining s h.2)
    else s

/-- The outer `for (const creditor of creditors)` loop: each creditor starts
with `remaining = creditor.netBalance` and runs the inner loop. -/
def outerLoop : List Balance → PlanState → PlanState
  | [], s => s
  | c :: cs, s => outerLoop cs (innerLoop c (s.debtors.length + 1) c.netBalance s)

/-- The Settlement Planner of `EventBalanceView`: returns the emitted
settlements together with the final state of the (mutated) debtor records
and the final debtor cursor. -/
def eventBalanceSettlements (bs : List Balance) : List Settlement × List Balance × ℕ :=
  let s := outerLoop (creditorsOf bs) ⟨debtorsOf bs, 0, []⟩
  (s.settlements, s.debtors, s.di)

/-! Specification-side accounting functions, written from the claim wording,
to be compared with the aggregator's output. -/

/-- A user id occurs in an expense as its payer or as a split participant. -/
def touches (e : Expense) (u : String) : Prop :=
  e.paidBy.id = u ∨ ∃ s ∈ e.splits, s.user.id = u

/-- A user id appears in the expense list as a payer or split participant. -/
def appears (es : List Expense) (u : String) : Prop :=
  ∃ e ∈ es, touches e u

instance : ∀ e u, Decidable (touches e u) := fun _ _ => by
  unfold touches; infer_instance

instance : ∀ es u, Decidable (appears es u) := fun _ _ => by
  unfold appears; infer_instance

/-- Sum of the split shares of one expense. -/
def sumShares (e : Expense) : ℚ := (e.splits.map (fun s => s.share)).sum

/-- Sum of the amounts of the expenses paid by user `u`. -/
def sumPaidBy (es : List Expense) (u : String) : ℚ :=
  ((es.filter (fun e => e.paidBy.id = u)).map (fun e => e.amount)).sum

/-- Sum of user `u`'s split shares inside one expense. -/
def owedIn (e : Expense) (u : String) : ℚ :=
  ((e.splits.filter (fun s => s.user.id = u)).map (fun s => s.share)).sum

/-- Sum of user `u`'s split shares over the expense list. -/
def sumOwedBy (es : List Expense) (u : String) : ℚ :=
  (es.map (fun e => owedIn e u)).sum

/-! Association-list laws. -/

theorem lookupB_setB (m : List (String × BalanceRec)) (k u : String) (v : BalanceRec) :
    lookupB (setB m k v) u = if k = u then some v else lookupB m u := by
  induction m with
  | nil => simp [setB, lookupB]
  | cons p m ih =>
    obtain ⟨k', w⟩ := p
    by_cases hk : k' = k
    · subst hk
      by_cases hu : k' = u <;> simp [setB, lookupB, hu]
    · by_cases hu : k' = u
      · subst hu
        have hne : ¬ k = k' := fun hh => hk hh.symm
        simp [setB, lookupB, hk, hne]
      · simp [setB, lookupB, hk, hu, ih]

theorem setB_keys_of_mem (m : List (String × BalanceRec)) (k : String) (v : BalanceRec)
    (h : lookupB m k ≠ none) : (setB m k v).map Prod.fst = m.map Prod.fst := by
  induction m with
  | nil => simp [lookupB] at h
  | cons p m ih =>
    obtain ⟨k', w⟩ := p
    by_cases hk : k' = k
    · simp [setB, hk]
    · simp only [lookupB, if_neg hk] at h
      simp [setB, hk, ih h]

theorem setB_of_not_mem (m : List (String × BalanceRec)) (k : String) (v : BalanceRec)
    (h : lookupB m k = none) : setB m k v = m ++ [(k, v)] := by
  induction m with
  | nil => simp [setB]
  | cons p m ih =>
    obtain ⟨k', w⟩ := p
    by_cases hk : k' = k
    · simp [lookupB, hk] at h
    · simp only [lookupB, if_neg hk] at h
      simp [setB, hk, ih h]

/-- Sum of a numeric field over the association list. -/
def fieldSum (f : BalanceRec → ℚ) (m : List (String × BalanceRec)) : ℚ :=
  (m.map (fun p => f p.2)).sum

theorem fieldSum_setB_of_mem (f : BalanceRec → ℚ) (m : List (String × BalanceRec))
    (k : String) (v b : BalanceRec) (h : lookupB m k = some b) :
    fieldSum f (setB m k v) = fieldSum f m - f b + f v := by
  induction m with
  | nil => simp [lookupB] at h
  | cons p m ih =>
    obtain ⟨k', w⟩ := p
    by_cases hk : k' = k
    · subst hk
      have hwb : w = b := by simpa [lookupB] using h
      subst hwb
      rw [show setB ((k', w) :: m) k' v = (k', v) :: m from by simp [setB]]
      simp only [fieldSum, List.map_cons, List.sum_cons]
      ring
    · have h' : lookupB m k = some b := by simpa [lookupB, hk] using h
      simp only [setB, if_neg hk, fieldSum, List.map_cons, List.sum_cons]
      have := ih h'
      simp only [fieldSum] at this
      rw [this]
      ring

theorem fieldSum_setB_of_not_mem (f : BalanceRec → ℚ) (m : List (String × BalanceRec))
    (k : String) (v : BalanceRec) (h : lookupB m k = none) :
    fieldSum f (setB m k v) = fieldSum f m + f v := by
  rw [setB_of_not_mem m k v h]
  simp [fieldSum]

theorem lookupB_of_mem_of_nodupkeys (m : List (String × BalanceRec)) (k : String)
    (b : BalanceRec) (hmem : (k, b) ∈ m) (hnd : (m.map Prod.fst).Nodup) :
    lookupB m k = some b := by
  induction m with
  | nil => simp at hmem
  | cons p m ih =>
    obtain ⟨k', w⟩ := p
    simp only [List.map_cons, List.nodup_cons] at hnd
    rcases List.mem_cons.mp hmem with h | h
    · obtain ⟨rfl, rfl⟩ := Prod.mk.inj h
      simp [lookupB]
    · have hk : k' ≠ k := fun hkk =>
        hnd.1 (List.mem_map.mpr ⟨(k, b), h, hkk.symm⟩)
      simp [lookupB, hk, ih h hnd.2]

/-! Laws of the id set `collectIds`. -/

theorem mem_insertId (l : List String) (u v : String) :
    v ∈ insertId l u ↔ v ∈ l ∨ v = u := by
  unfold insertId
  by_cases h : u ∈ l
  · simp only [if_pos h]
    constructor
    · exact Or.inl
    · rintro (hv | rfl) <;> [exact hv; exact h]
  · simp [if_neg h]

theorem nodup_insertId (l : List String) (u : String) (h : l.Nodup) :
    (insertId l u).Nodup := by
  unfold insertId
  by_cases hm : u ∈ l
  · simpa [if_pos hm]
  · rw [if_neg hm]
    refine List.Nodup.append h (List.nodup_singleton u) ?_
    intro a ha hau
    rw [List.mem_singleton.mp hau] at ha
    exact hm ha

theorem mem_splitsFold (sl : List SplitRec) (l : List String) (v : String) :
    v ∈ sl.foldl (fun acc s => insertId acc s.user.id) l ↔
      v ∈ l ∨ ∃ s ∈ sl, s.user.id = v := by
  induction sl generalizing l with
  | nil => simp
  | cons s sl ih =>
    simp only [List.foldl_cons, ih, mem_insertId, List.mem_cons]
    constructor
    · rintro ((hv | hv) | ⟨s', hs', rfl⟩)
      · exact Or.inl hv
      · exact Or.inr ⟨s, Or.inl rfl, hv.symm⟩
      · exact Or.inr ⟨s', Or.inr hs', rfl⟩
    · rintro (hv | ⟨s', hs' | hs', rfl⟩)
      · exact Or.inl (Or.inl hv)
      · exact Or.inl (Or.inr (by rw [hs']))
      · exact Or.inr ⟨s', hs', rfl⟩

theorem mem_expenseIds (l : List String) (e : Expense) (v : String) :
    v ∈ expenseIds l e ↔ v ∈ l ∨ touches e v := by
  unfold expenseIds touches
  rw [mem_splitsFold, mem_insertId]
  constructor
  · rintro ((hv | hv) | hv)
    · exact Or.inl hv
    · exact Or.inr (Or.inl hv.symm)
    · exact Or.inr (Or.inr hv)
  · rintro (hv | hv | hv)
    · exact Or.inl (Or.inl hv)
    · exact Or.inl (Or.inr hv.symm)
    · exact Or.inr hv

theorem nodup_splitsFold (sl : List SplitRec) (l : List String) (h : l.Nodup) :
    (sl.foldl (fun acc s => insertId acc s.user.id) l).Nodup := by
  induction sl generalizing l with
  | nil => simpa
  | cons s sl ih => exact ih _ (nodup_insertId _ _ h)

theorem nodup_expenseIds (l : List String) (e : Expense) (h : l.Nodup) :
    (expenseIds l e).Nodup :=
  nodup_splitsFold _ _ (nodup_insertId _ _ h)

theorem mem_collectIds_fold (es : List Expense) (l : List String) (v : String) :
    v ∈ es.foldl expenseIds l ↔ v ∈ l ∨ appears es v := by
  induction es generalizing l with
  | nil => simp [appears]
  | cons e es ih =>
    simp only [List.foldl_cons, ih, mem_expenseIds, appears, List.mem_cons]
    constructor
    · rintro ((hv | hv) | ⟨e', he', ht⟩)
      · exact Or.inl hv
      · exact Or.inr ⟨e, Or.inl rfl, hv⟩
      · exact Or.inr ⟨e', Or.inr he', ht⟩
    · rintro (hv | ⟨e', he' | he', ht⟩)
      · exact Or.inl (Or.inl hv)
      · exact Or.inl (Or.inr (he' ▸ ht))
      · exact Or.inr ⟨e', he', ht⟩

theorem mem_collectIds (es : List Expense) (v : String) :
    v ∈ collectIds es ↔ appears es v := by
  unfold collectIds
  rw [mem_collectIds_fold]
  simp

theorem nodup_collectIds (es : List Expense) : (collectIds es).Nodup := by
  unfold collectIds
  have : ∀ l : List String, l.Nodup → (es.foldl expenseIds l).Nodup := by
    induction es with
    | nil => exact fun l h => h
    | cons e es ih => exact fun l h => ih _ (nodup_expenseIds l e h)
  exact this [] List.nodup_nil

/-! Value tracking through the accumulation pass. -/

/-- Sum of the shares for user `u` in a split list. -/
def owedShares (sl : List SplitRec) (u : String) : ℚ :=
  ((sl.filter (fun s => s.user.id = u)).map (fun s => s.share)).sum

theorem owedIn_eq (e : Expense) (u : String) : owedIn e u = owedShares e.splits u := rfl

theorem owedShares_cons (s : SplitRec) (sl : List SplitRec) (u : String) :
    owedShares (s :: sl) u =
      (if s.user.id = u then s.share else 0) + owedShares sl u := by
  by_cases h : s.user.id = u <;> simp [owedShares, h]

theorem sumPaidBy_cons (e : Expense) (es : List Expense) (u : String) :
    sumPaidBy (e :: es) u =
      (if e.paidBy.id = u then e.amount else 0) + sumPaidBy es u := by
  by_cases h : e.paidBy.id = u <;> simp [sumPaidBy, h]

theorem sumOwedBy_cons (e : Expense) (es : List Expense) (u : String) :
    sumOwedBy (e :: es) u = owedIn e u + sumOwedBy es u := by
  simp [sumOwedBy]

theorem lookupB_bumpPaid_self (m : List (String × BalanceRec)) (u : User) (amt : ℚ)
    (b : BalanceRec) (h : lookupB m u.id = some b) :
    lookupB (bumpPaid m u amt) u.id =
      some { b with totalPaid := b.totalPaid + amt, user := some u } := by
  rw [bumpPaid, h, lookupB_setB, if_pos rfl]

theorem lookupB_bumpPaid_other (m : List (String × BalanceRec)) (u : User) (amt : ℚ)
    (w : String) (h : u.id ≠ w) :
    lookupB (bumpPaid m u amt) w = lookupB m w := by
  rw [bumpPaid]
  cases hm : lookupB m u.id <;> rw [lookupB_setB, if_neg h]

theorem lookupB_bumpOwed_self (m : List (String × BalanceRec)) (u : User) (sh : ℚ)
    (b : BalanceRec) (h : lookupB m u.id = some b) :
    lookupB (bumpOwed m u sh) u.id =
      some { b with totalOwed := b.totalOwed + sh, user := some u } := by
  rw [bumpOwed, h, lookupB_setB, if_pos rfl]

theorem lookupB_bumpOwed_other (m : List (String × BalanceRec)) (u : User) (sh : ℚ)
    (w : String) (h : u.id ≠ w) :
    lookupB (bumpOwed m u sh) w = lookupB m w := by
  rw [bumpOwed]
  cases hm : lookupB m u.id <;> rw [lookupB_setB, if_neg h]

theorem lookupB_splitsFold (sl : List SplitRec) (m : List (String × BalanceRec))
    (u : String) (b : BalanceRec) (h : lookupB m u = some b) :
    ∃ b', lookupB (sl.foldl (fun acc s => bumpOwed acc s.user s.share) m) u = some b' ∧
      b'.totalPaid = b.totalPaid ∧ b'.totalOwed = b.totalOwed + owedShares sl u ∧
      b'.netBalance = b.netBalance := by
  induction sl generalizing m b with
  | nil => exact ⟨b, by simpa [owedShares] using h⟩
  | cons s sl ih =>
    rw [List.foldl_cons]
    by_cases hu : s.user.id = u
    · have h1 := lookupB_bumpOwed_self m s.user s.share b (hu ▸ h)
      rw [hu] at h1
      obtain ⟨b', hb', hp, ho, hn⟩ := ih _ _ h1
      exact ⟨b', hb', by simpa using hp, by rw [ho, owedShares_cons, if_pos hu]; ring,
        by simpa using hn⟩
    · have h1 : lookupB (bumpOwed m s.user s.share) u = some b := by
        rw [lookupB_bumpOwed_other m s.user s.share u hu, h]
      obtain ⟨b', hb', hp, ho, hn⟩ := ih _ _ h1
      exact ⟨b', hb', hp, by rw [ho, owedShares_cons, if_neg hu]; ring, hn⟩

theorem lookupB_applyExpense (e : Expense) (m : List (String × BalanceRec))
    (u : String) (b : BalanceRec) (h : lookupB m u = some b) :
    ∃ b', lookupB (applyExpense m e) u = some b' ∧
      b'.totalPaid = b.totalPaid + (if e.paidBy.id = u then e.amount else 0) ∧
      b'.totalOwed = b.totalOwed + owedIn e u ∧
      b'.netBalance = b.netBalance := by
  rw [applyExpense]
  by_cases hu : e.paidBy.id = u
  · have h1 := lookupB_bumpPaid_self m e.paidBy e.amount b (hu ▸ h)
    rw [hu] at h1
    obtain ⟨b', hb', hp, ho, hn⟩ := lookupB_splitsFold e.splits _ u _ h1
    exact ⟨b', hb', by rw [hp, if_pos hu], by rw [ho, owedIn_eq], by simpa using hn⟩
  · have h1 : lookupB (bumpPaid m e.paidBy e.amount) u = some b := by
      rw [lookupB_bumpPaid_other m e.paidBy e.amount u hu, h]
    obtain ⟨b', hb', hp, ho, hn⟩ := lookupB_splitsFold e.splits _ u _ h1
    exact ⟨b', hb', by rw [hp, if_neg hu]; ring, by rw [ho, owedIn_eq], hn⟩

theorem lookupB_expensesFold (es : List Expense) (m : List (String × BalanceRec))
    (u : String) (b : BalanceRec) (h : lookupB m u = some b) :
    ∃ b', lookupB (es.foldl applyExpense m) u = some b' ∧
      b'.totalPaid = b.totalPaid + sumPaidBy es u ∧
      b'.totalOwed = b.totalOwed + sumOwedBy es u ∧
      b'.netBalance = b.netBalance := by
  induction es generalizing m b with
  | nil => exact ⟨b, by simpa [sumPaidBy, sumOwedBy] using h⟩
  | cons e es ih =>
    rw [List.foldl_cons]
    obtain ⟨b1, hb1, hp1, ho1, hn1⟩ := lookupB_applyExpense e m u b h
    obtain ⟨b', hb', hp, ho, hn⟩ := ih _ _ hb1
    refine ⟨b', hb', ?_, ?_, by rw [hn, hn1]⟩
    · rw [hp, hp1, sumPaidBy_cons]; ring
    · rw [ho, ho1, sumOwedBy_cons]; ring

/-- Lookup in the freshly initialised balance record. -/
theorem lookupB_init (l : List String) (d : BalanceRec) (w : String) :
    lookupB (l.map (fun u => (u, d))) w = if w ∈ l then some d else none := by
  induction l with
  | nil => simp [lookupB]
  | cons x l ih =>
    by_cases hx : x = w
    · subst hx
      simp [lookupB]
    · have hxw : ¬ w = x := fun hh => hx hh.symm
      simp [lookupB, hx, hxw, ih]

/-- The balance record produced by the Aggregator for an appearing user id. -/
theorem lookupB_aggBalances (es : List Expense) (u : String) (hu : appears es u) :
    ∃ b, lookupB (aggBalances es) u = some b ∧
      b.totalPaid = sumPaidBy es u ∧ b.totalOwed = sumOwedBy es u ∧ b.netBalance = 0 := by
  have hmem : u ∈ collectIds es := (mem_collectIds es u).mpr hu
  have hinit : lookupB ((collectIds es).map (fun v => (v, (⟨none, 0, 0, 0⟩ : BalanceRec)))) u
      = some ⟨none, 0, 0, 0⟩ := by
    rw [lookupB_init, if_pos hmem]
  obtain ⟨b, hb, hp, ho, hn⟩ := lookupB_expensesFold es _ u _ hinit
  exact ⟨b, hb, by simpa using hp, by simpa using ho, hn⟩

/-! Key preservation: the accumulation pass never creates a key, since every
payer and split-participant id is pre-initialised. -/

theorem lookupB_isSome_iff_mem_keys (m : List (String × BalanceRec)) (u : String) :
    lookupB m u ≠ none ↔ u ∈ m.map Prod.fst := by
  induction m with
  | nil => simp [lookupB]
  | cons p m ih =>
    obtain ⟨k, v⟩ := p
    by_cases hk : k = u
    · subst hk
      simp [lookupB]
    · have hku : ¬ u = k := fun hh => hk hh.symm
      simp [lookupB, hk, hku, ih]

theorem bumpPaid_keys (m : List (String × BalanceRec)) (u : User) (amt : ℚ)
    (h : u.id ∈ m.map Prod.fst) :
    (bumpPaid m u amt).map Prod.fst = m.map Prod.fst := by
  have h' := (lookupB_isSome_iff_mem_keys m u.id).mpr h
  rw [bumpPaid]
  cases hm : lookupB m u.id with
  | none => exact absurd hm h'
  | some b => exact setB_keys_of_mem m u.id _ (by rw [hm]; exact Option.some_ne_none b)

theorem bumpOwed_keys (m : List (String × BalanceRec)) (u : User) (sh : ℚ)
    (h : u.id ∈ m.map Prod.fst) :
    (bumpOwed m u sh).map Prod.fst = m.map Prod.fst := by
  have h' := (lookupB_isSome_iff_mem_keys m u.id).mpr h
  rw [bumpOwed]
  cases hm : lookupB m u.id with
  | none => exact absurd hm h'
  | some b => exact setB_keys_of_mem m u.id _ (by rw [hm]; exact Option.some_ne_none b)

theorem splitsFold_keys (sl : List SplitRec) (m : List (String × BalanceRec))
    (h : ∀ s ∈ sl, s.user.id ∈ m.map Prod.fst) :
    (sl.foldl (fun acc s => bumpOwed acc s.user s.share) m).map Prod.fst = m.map Prod.fst := by
  induction sl generalizing m with
  | nil => rfl
  | cons s sl ih =>
    rw [List.foldl_cons]
    have h1 := bumpOwed_keys m s.user s.share (h s (List.mem_cons_self s sl))
    rw [ih _ (fun s' hs' => h1 ▸ h s' (List.mem_cons_of_mem s hs')), h1]

theorem applyExpense_keys (e : Expense) (m : List (String × BalanceRec))
    (h : ∀ u, touches e u → u ∈ m.map Prod.fst) :
    (applyExpense m e).map Prod.fst = m.map Prod.fst := by
  rw [applyExpense]
  have h1 := bumpPaid_keys m e.paidBy e.amount (h _ (Or.inl rfl))
  rw [splitsFold_keys _ _ (fun s hs => h1 ▸ h _ (Or.inr ⟨s, hs, rfl⟩)), h1]

theorem aggBalances_keys (es : List Expense) :
    (aggBalances es).map Prod.fst = collectIds es := by
  rw [aggBalances]
  have hinit : ((collectIds es).map
      (fun u => (u, (⟨none, 0, 0, 0⟩ : BalanceRec)))).map Prod.fst = collectIds es := by
    rw [List.map_map]
    exact List.map_id _
  have main : ∀ (l : List Expense) (m : List (String × BalanceRec)),
      (∀ u, appears l u → u ∈ m.map Prod.fst) →
      (l.foldl applyExpense m).map Prod.fst = m.map Prod.fst := by
    intro l
    induction l with
    | nil => exact fun m _ => rfl
    | cons e l ih =>
      intro m hm
      rw [List.foldl_cons]
      have h1 := applyExpense_keys e m (fun u hu => hm u ⟨e, List.mem_cons_self e l, hu⟩)
      rw [ih _ (fun u hu => by
        rw [h1]
        rcases hu with ⟨e', he', ht⟩
        exact hm u ⟨e', List.mem_cons_of_mem e he', ht⟩), h1]
  rw [main es _ (fun u hu => by rw [hinit]; exact (mem_collectIds es u).mpr hu), hinit]

/-! The `user` field: every touched entry ends with a non-null user. -/

/-- Every value stored at key `w` has a non-null `user` field. -/
def entryUserSome (m : List (String × BalanceRec)) (w : String) : Prop :=
  ∀ b, lookupB m w = some b → b.user.isSome

theorem bumpPaid_self_userSome (m : List (String × BalanceRec)) (u : User) (amt : ℚ) :
    entryUserSome (bumpPaid m u amt) u.id := by
  intro b hb
  rw [bumpPaid] at hb
  cases hm : lookupB m u.id with
  | none =>
    rw [hm, lookupB_setB, if_pos rfl] at hb
    cases hb
    rfl
  | some b0 =>
    rw [hm, lookupB_setB, if_pos rfl] at hb
    cases hb
    rfl

theorem bumpOwed_self_userSome (m : List (String × BalanceRec)) (u : User) (sh : ℚ) :
    entryUserSome (bumpOwed m u sh) u.id := by
  intro b hb
  rw [bumpOwed] at hb
  cases hm : lookupB m u.id with
  | none =>
    rw [hm, lookupB_setB, if_pos rfl] at hb
    cases hb
    rfl
  | some b0 =>
    rw [hm, lookupB_setB, if_pos rfl] at hb
    cases hb
    rfl

theorem bumpPaid_preserve_userSome (m : List (String × BalanceRec)) (u : User) (amt : ℚ)
    (w : String) (h : entryUserSome m w) : entryUserSome (bumpPaid m u amt) w := by
  by_cases hw : u.id = w
  · exact hw ▸ bumpPaid_self_userSome m u amt
  · intro b hb
    rw [lookupB_bumpPaid_other m u amt w hw] at hb
    exact h b hb

theorem bumpOwed_preserve_userSome (m : List (String × BalanceRec)) (u : User) (sh : ℚ)
    (w : String) (h : entryUserSome m w) : entryUserSome (bumpOwed m u sh) w := by
  by_cases hw : u.id = w
  · exact hw ▸ bumpOwed_self_userSome m u sh
  · intro b hb
    rw [lookupB_bumpOwed_other m u sh w hw] at hb
    exact h b hb

theorem splitsFold_preserve_userSome (sl : List SplitRec) (m : List (String × BalanceRec))
    (w : String) (h : entryUserSome m w) :
    entryUserSome (sl.foldl (fun acc s => bumpOwed acc s.user s.share) m) w := by
  induction sl generalizing m with
  | nil => exact h
  | cons s sl ih => exact ih _ (bumpOwed_preserve_userSome m s.user s.share w h)

theorem splitsFold_establish_userSome (sl : List SplitRec) (m : List (String × BalanceRec))
    (w : String) (h : ∃ s ∈ sl, s.user.id = w) :
    entryUserSome (sl.foldl (fun acc s => bumpOwed acc s.user s.share) m) w := by
  induction sl generalizing m with
  | nil => simp at h
  | cons s sl ih =>
    rw [List.foldl_cons]
    rcases h with ⟨s', hs', hw⟩
    rcases List.mem_cons.mp hs' with rfl | hs'
    · exact splitsFold_preserve_userSome sl _ w (hw ▸ bumpOwed_self_userSome m s'.user s'.share)
    · exact ih _ ⟨s', hs', hw⟩

theorem applyExpense_establish_userSome (e : Expense) (m : List (String × BalanceRec))
    (w : String) (h : touches e w) : entryUserSome (applyExpense m e) w := by
  rw [applyExpense]
  rcases h with h | h
  · exact splitsFold_preserve_userSome e.splits _ w (h ▸ bumpPaid_self_userSome m e.paidBy e.amount)
  · exact splitsFold_establish_userSome e.splits _ w h

theorem applyExpense_preserve_userSome (e : Expense) (m : List (String × BalanceRec))
    (w : String) (h : entryUserSome m w) : entryUserSome (applyExpense m e) w :=
  splitsFold_preserve_userSome e.splits _ w (bumpPaid_preserve_userSome m e.paidBy e.amount w h)

theorem expensesFold_preserve_userSome (es : List Expense) (m : List (String × BalanceRec))
    (w : String) (h : entryUserSome m w) : entryUserSome (es.foldl applyExpense m) w := by
  induction es generalizing m with
  | nil => exact h
  | cons e es ih => exact ih _ (applyExpense_preserve_userSome e m w h)

theorem expensesFold_userSome (es : List Expense) (m : List (String × BalanceRec))
    (w : String) (h : ∃ e ∈ es, touches e w) :
    entryUserSome (es.foldl applyExpense m) w := by
  induction es generalizing m with
  | nil => simp at h
  | cons e es ih =>
    rw [List.foldl_cons]
    rcases h with ⟨e', he', ht⟩
    rcases List.mem_cons.mp he' with rfl | he'
    · exact expensesFold_preserve_userSome es _ w (applyExpense_establish_userSome e' m w ht)
    · exact ih _ ⟨e', he', ht⟩

/-! Conservation: field sums through the accumulation pass. -/

theorem fieldSum_bumpPaid_paid (m : List (String × BalanceRec)) (u : User) (amt : ℚ) :
    fieldSum (fun b => b.totalPaid) (bumpPaid m u amt) =
      fieldSum (fun b => b.totalPaid) m + amt := by
  rw [bumpPaid]
  cases hm : lookupB m u.id with
  | none => rw [fieldSum_setB_of_not_mem _ _ _ _ hm]
  | some b => rw [fieldSum_setB_of_mem _ _ _ _ b hm]; ring

theorem fieldSum_bumpPaid_owed (m : List (String × BalanceRec)) (u : User) (amt : ℚ) :
    fieldSum (fun b => b.totalOwed) (bumpPaid m u amt) =
      fieldSum (fun b => b.totalOwed) m := by
  rw [bumpPaid]
  cases hm : lookupB m u.id with
  | none => rw [fieldSum_setB_of_not_mem _ _ _ _ hm]; ring
  | some b => rw [fieldSum_setB_of_mem _ _ _ _ b hm]; ring

theorem fieldSum_bumpOwed_owed (m : List (String × BalanceRec)) (u : User) (sh : ℚ) :
    fieldSum (fun b => b.totalOwed) (bumpOwed m u sh) =
      fieldSum (fun b => b.totalOwed) m + sh := by
  rw [bumpOwed]
  cases hm : lookupB m u.id with
  | none => rw [fieldSum_setB_of_not_mem _ _ _ _ hm]
  | some b => rw [fieldSum_setB_of_mem _ _ _ _ b hm]; ring

theorem fieldSum_bumpOwed_paid (m : List (String × BalanceRec)) (u : User) (sh : ℚ) :
    fieldSum (fun b => b.totalPaid) (bumpOwed m u sh) =
      fieldSum (fun b => b.totalPaid) m := by
  rw [bumpOwed]
  cases hm : lookupB m u.id with
  | none => rw [fieldSum_setB_of_not_mem _ _ _ _ hm]; ring
  | some b => rw [fieldSum_setB_of_mem _ _ _ _ b hm]; ring

theorem fieldSum_splitsFold_owed (sl : List SplitRec) (m : List (String × BalanceRec)) :
    fieldSum (fun b => b.totalOwed) (sl.foldl (fun acc s => bumpOwed acc s.user s.share) m) =
      fieldSum (fun b => b.totalOwed) m + (sl.map (fun s => s.share)).sum := by
  induction sl generalizing m with
  | nil => simp
  | cons s sl ih =>
    rw [List.foldl_cons, ih, fieldSum_bumpOwed_owed, List.map_cons, List.sum_cons]
    ring

theorem fieldSum_splitsFold_paid (sl : List SplitRec) (m : List (String × BalanceRec)) :
    fieldSum (fun b => b.totalPaid) (sl.foldl (fun acc s => bumpOwed acc s.user s.share) m) =
      fieldSum (fun b => b.totalPaid) m := by
  induction sl generalizing m with
  | nil => rfl
  | cons s sl ih => rw [List.foldl_cons, ih, fieldSum_bumpOwed_paid]

theorem fieldSum_applyExpense_paid (e : Expense) (m : List (String × BalanceRec)) :
    fieldSum (fun b => b.totalPaid) (applyExpense m e) =
      fieldSum (fun b => b.totalPaid) m + e.amount := by
  rw [applyExpense, fieldSum_splitsFold_paid, fieldSum_bumpPaid_paid]

theorem fieldSum_applyExpense_owed (e : Expense) (m : List (String × BalanceRec)) :
    fieldSum (fun b => b.totalOwed) (applyExpense m e) =
      fieldSum (fun b => b.totalOwed) m + sumShares e := by
  rw [applyExpense, fieldSum_splitsFold_owed, fieldSum_bumpPaid_owed, sumShares]

theorem fieldSum_aggBalances_paid (es : List Expense) :
    fieldSum (fun b => b.totalPaid) (aggBalances es) = (es.map (fun e => e.amount)).sum := by
  rw [aggBalances]
  have hinit : fieldSum (fun b => b.totalPaid)
      ((collectIds es).map (fun u => (u, (⟨none, 0, 0, 0⟩ : BalanceRec)))) = 0 := by
    rw [fieldSum, List.map_map]
    exact List.sum_eq_zero (by
      intro x hx
      obtain ⟨u, hu, rfl⟩ := List.mem_map.mp hx
      rfl)
  have main : ∀ (l : List Expense) (m : List (String × BalanceRec)),
      fieldSum (fun b => b.totalPaid) (l.foldl applyExpense m) =
        fieldSum (fun b => b.totalPaid) m + (l.map (fun e => e.amount)).sum := by
    intro l
    induction l with
    | nil => simp
    | cons e l ih =>
      intro m
      rw [List.foldl_cons, ih, fieldSum_applyExpense_paid, List.map_cons, List.sum_cons]
      ring
  rw [main, hinit, zero_add]

theorem fieldSum_aggBalances_owed (es : List Expense) :
    fieldSum (fun b => b.totalOwed) (aggBalances es) = (es.map sumShares).sum := by
  rw [aggBalances]
  have hinit : fieldSum (fun b => b.totalOwed)
      ((collectIds es).map (fun u => (u, (⟨none, 0, 0, 0⟩ : BalanceRec)))) = 0 := by
    rw [fieldSum, List.map_map]
    exact List.sum_eq_zero (by
      intro x hx
      obtain ⟨u, hu, rfl⟩ := List.mem_map.mp hx
      rfl)
  have main : ∀ (l : List Expense) (m : List (String × BalanceRec)),
      fieldSum (fun b => b.totalOwed) (l.foldl applyExpense m) =
        fieldSum (fun b => b.totalOwed) m + (l.map sumShares).sum := by
    intro l
    induction l with
    | nil => simp
    | cons e l ih =>
      intro m
      rw [List.foldl_cons, ih, fieldSum_applyExpense_owed, List.map_cons, List.sum_cons]
      ring
  rw [main, hinit, zero_add]

theorem getBalance_sum_paid (es : List Expense) :
    ((getBalance es).map (fun b => b.totalPaid)).sum = (es.map (fun e => e.amount)).sum := by
  rw [getBalance, List.map_map, ← fieldSum_aggBalances_paid, fieldSum]
  rfl

theorem getBalance_sum_owed (es : List Expense) :
    ((getBalance es).map (fun b => b.totalOwed)).sum = (es.map sumShares).sum := by
  rw [getBalance, List.map_map, ← fieldSum_aggBalances_owed, fieldSum]
  rfl

theorem getBalance_sum_net (es : List Expense) :
    ((getBalance es).map (fun b => b.netBalance)).sum =
      (es.map (fun e => e.amount)).sum - (es.map sumShares).sum := by
  rw [← getBalance_sum_paid, ← getBalance_sum_owed, getBalance, List.map_map, List.map_map,
    List.map_map]
  induction aggBalances es with
  | nil => simp
  | cons p m ih =>
    simp only [List.map_cons, List.sum_cons, Function.comp]
    rw [ih]
    ring

/-- Bounding a sum of pointwise-bounded summands. -/
theorem abs_sum_le_of_forall {α : Type} (l : List α) (f : α → ℚ) (c : ℚ)
    (h : ∀ x ∈ l, |f x| ≤ c) : |(l.map f).sum| ≤ c * l.length := by
  induction l with
  | nil => simp
  | cons x l ih =>
    rw [List.map_cons, List.sum_cons]
    calc |f x + (l.map f).sum| ≤ |f x| + |(l.map f).sum| := abs_add _ _
      _ ≤ c + c * l.length := by
          have h1 := h x (List.mem_cons_self x l)
          have h2 := ih (fun y hy => h y (List.mem_cons_of_mem x hy))
          exact add_le_add h1 h2
      _ = c * (x :: l).length := by
          rw [List.length_cons]
          push_cast
          ring

theorem sum_map_sub {α : Type} (l : List α) (f g : α → ℚ) :
    (l.map (fun x => f x - g x)).sum = (l.map f).sum - (l.map g).sum := by
  induction l with
  | nil => simp
  | cons x l ih =>
    simp only [List.map_cons, List.sum_cons, ih]
    ring

/-! Settlement bookkeeping functions, written from the claim wording. -/

/-- Total amount of a settlement list. -/
def sumAmt (l : List Settlement) : ℚ := (l.map (fun x => x.amount)).sum

/-- Total amount paid out by user `u` in a settlement list. -/
def sumFromUser (l : List Settlement) (u : String) : ℚ :=
  ((l.filter (fun x => x.fromUser = u)).map (fun x => x.amount)).sum

/-- Total amount received by user `u` in a settlement list. -/
def sumToUser (l : List Settlement) (u : String) : ℚ :=
  ((l.filter (fun x => x.toUser = u)).map (fun x => x.amount)).sum

theorem sumAmt_cons (x : Settlement) (l : List Settlement) :
    sumAmt (x :: l) = x.amount + sumAmt l := by simp [sumAmt]

theorem sumAmt_append (l1 l2 : List Settlement) :
    sumAmt (l1 ++ l2) = sumAmt l1 + sumAmt l2 := by simp [sumAmt]

theorem sumFromUser_cons (x : Settlement) (l : List Settlement) (u : String) :
    sumFromUser (x :: l) u =
      (if x.fromUser = u then x.amount else 0) + sumFromUser l u := by
  by_cases h : x.fromUser = u <;> simp [sumFromUser, h]

theorem sumToUser_cons (x : Settlement) (l : List Settlement) (u : String) :
    sumToUser (x :: l) u =
      (if x.toUser = u then x.amount else 0) + sumToUser l u := by
  by_cases h : x.toUser = u <;> simp [sumToUser, h]

theorem sumFromUser_append (l1 l2 : List Settlement) (u : String) :
    sumFromUser (l1 ++ l2) u = sumFromUser l1 u + sumFromUser l2 u := by
  simp [sumFromUser]

theorem sumToUser_append (l1 l2 : List Settlement) (u : String) :
    sumToUser (l1 ++ l2) u = sumToUser l1 u + sumToUser l2 u := by
  simp [sumToUser]

theorem sumFromUser_eq_zero (l : List Settlement) (u : String)
    (h : ∀ x ∈ l, x.fromUser ≠ u) : sumFromUser l u = 0 := by
  rw [sumFromUser, List.filter_eq_nil_iff.mpr (by
    intro x hx
    simpa using h x hx)]
  rfl

theorem sumToUser_eq_zero (l : List Settlement) (u : String)
    (h : ∀ x ∈ l, x.toUser ≠ u) : sumToUser l u = 0 := by
  rw [sumToUser, List.filter_eq_nil_iff.mpr (by
    intro x hx
    simpa using h x hx)]
  rfl

/-- The fields of a planner balance other than the mutated `netBalance`. -/
def stripNB (b : Balance) : String × ℚ × ℚ := (b.userId, b.totalPaid, b.totalOwed)

/-! Generic list helpers for indexed reasoning about `List.set`, phrased
with an option-valued accessor to avoid dependent index proofs. -/

/-- Option-valued positional access into the debtor array. -/
def bget? : List Balance → ℕ → Option Balance
  | [], _ => none
  | b :: _, 0 => some b
  | _ :: l, i + 1 => bget? l i

theorem bget?_eq_get (l : List Balance) (i : ℕ) (h : i < l.length) :
    bget? l i = some (l.get ⟨i, h⟩) := by
  induction l generalizing i with
  | nil => simp at h
  | cons a l ih =>
    cases i with
    | zero => rfl
    | succ i => exact ih i (by simpa using h)

theorem bget?_mem (l : List Balance) (i : ℕ) (b : Balance) (h : bget? l i = some b) :
    b ∈ l := by
  induction l generalizing i with
  | nil => simp [bget?] at h
  | cons a l ih =>
    cases i with
    | zero =>
      rw [bget?] at h
      cases h
      exact List.mem_cons_self _ _
    | succ i => exact List.mem_cons_of_mem a (ih i h)

theorem bget?_lt_length (l : List Balance) (i : ℕ) (b : Balance)
    (h : bget? l i = some b) : i < l.length := by
  induction l generalizing i with
  | nil => simp [bget?] at h
  | cons a l ih =>
    cases i with
    | zero => simp
    | succ i => simpa using ih i h

theorem bget?_of_lt_length (l : List Balance) (i : ℕ) (h : i < l.length) :
    ∃ b, bget? l i = some b :=
  ⟨l.get ⟨i, h⟩, bget?_eq_get l i h⟩

theorem bget?_set_self (l : List Balance) (i : ℕ) (y : Balance) (h : i < l.length) :
    bget? (l.set i y) i = some y := by
  induction l generalizing i with
  | nil => simp at h
  | cons a l ih =>
    cases i with
    | zero => rfl
    | succ i => exact ih i (by simpa using h)

theorem bget?_set_other (l : List Balance) (i j : ℕ) (y : Balance) (h : i ≠ j) :
    bget? (l.set i y) j = bget? l j := by
  induction l generalizing i j with
  | nil => rfl
  | cons a l ih =>
    cases i with
    | zero =>
      cases j with
      | zero => exact absurd rfl h
      | succ j => rfl
    | succ i =>
      cases j with
      | zero => rfl
      | succ j => exact ih i j (fun hh => h (by rw [hh]))

theorem bmap_set_same {β : Type} (l : List Balance) (i : ℕ) (h : i < l.length)
    (y : Balance) (f : Balance → β) (hy : f y = f (l.get ⟨i, h⟩)) :
    (l.set i y).map f = l.map f := by
  induction l generalizing i with
  | nil => simp at h
  | cons a l ih =>
    cases i with
    | zero => simpa using hy
    | succ i =>
      show (a :: l.set i y).map f = (a :: l).map f
      simp only [List.map_cons, List.cons.injEq, true_and]
      exact ih i (by simpa using h) hy

theorem strip_bget?_of_map_eq (l1 l2 : List Balance)
    (h : l1.map stripNB = l2.map stripNB) (i : ℕ) :
    Option.map stripNB (bget? l1 i) = Option.map stripNB (bget? l2 i) := by
  induction l1 generalizing l2 i with
  | nil =>
    cases l2 with
    | nil => rfl
    | cons b l2 => simp at h
  | cons a l1 ih =>
    cases l2 with
    | nil => simp at h
    | cons b l2 =>
      simp only [List.map_cons, List.cons.injEq] at h
      cases i with
      | zero => simp [bget?, h.1]
      | succ i => exact ih l2 h.2 i

theorem length_eq_of_strip_map_eq (l1 l2 : List Balance)
    (h : l1.map stripNB = l2.map stripNB) : l1.length = l2.length := by
  have := congrArg List.length h
  simpa using this

theorem bget?_userId_inj (l : List Balance)
    (hnd : (l.map (fun b => b.userId)).Nodup) (i j : ℕ) (b b' : Balance)
    (hi : bget? l i = some b) (hj : bget? l j = some b')
    (hu : b.userId = b'.userId) : i = j := by
  induction l generalizing i j with
  | nil => simp [bget?] at hi
  | cons a l ih =>
    simp only [List.map_cons, List.nodup_cons] at hnd
    cases i with
    | zero =>
      cases j with
      | zero => rfl
      | succ j =>
        exfalso
        rw [bget?] at hi
        cases hi
        apply hnd.1
        rw [List.mem_map]
        exact ⟨b', bget?_mem l j b' hj, hu.symm⟩
    | succ i =>
      cases j with
      | zero =>
        exfalso
        rw [bget?] at hj
        cases hj
        apply hnd.1
        rw [List.mem_map]
        exact ⟨b, bget?_mem l i b hi, hu⟩
      | succ j => rw [ih hnd.2 i j hi hj]

/-! The loop invariant of the greedy matching. -/

/-- Invariant of the planner state: the cursor is in range, every debtor
balance is nonpositive, every debtor at or past the cursor still carries at
least the tolerance in absolute value, every debtor strictly before the
cursor is settled (within tolerance), and debtor ids are distinct. -/
structure PlanInv (s : PlanState) : Prop where
  di_le : s.di ≤ s.debtors.length
  nonpos : ∀ b ∈ s.debtors, b.netBalance ≤ 0
  tail_big : ∀ (i : ℕ) (b : Balance), s.di ≤ i → bget? s.debtors i = some b →
    tol ≤ |b.netBalance|
  head_small : ∀ (i : ℕ) (b : Balance), i < s.di → bget? s.debtors i = some b →
    |b.netBalance| < tol

theorem tol_pos : (0 : ℚ) < tol := by norm_num [tol]

theorem innerLoop_of_le (c : Balance) (fuel : ℕ) (r : ℚ) (s : PlanState)
    (h : r ≤ tol) : innerLoop c fuel r s = s := by
  cases fuel with
  | zero => rfl
  | succ fuel =>
    rw [innerLoop, dif_neg]
    intro hg
    exact absurd h (not_le.mpr hg.1)

/-! Facts about one iteration of the inner loop. -/

theorem stepState_settlements (c : Balance) (r : ℚ) (s : PlanState)
    (h : s.di < s.debtors.length) :
    (stepState c r s h).settlements =
      s.settlements ++ [⟨(s.debtors.get ⟨s.di, h⟩).userId, c.userId, stepAmt r s h⟩] := rfl

theorem stepState_debtors (c : Balance) (r : ℚ) (s : PlanState)
    (h : s.di < s.debtors.length) :
    (stepState c r s h).debtors =
      s.debtors.set s.di { s.debtors.get ⟨s.di, h⟩ with
        netBalance := (s.debtors.get ⟨s.di, h⟩).netBalance + stepAmt r s h } := rfl

theorem stepState_di (c : Balance) (r : ℚ) (s : PlanState)
    (h : s.di < s.debtors.length) :
    (stepState c r s h).di =
      if |(s.debtors.get ⟨s.di, h⟩).netBalance + stepAmt r s h| < tol
        then s.di + 1 else s.di := rfl

theorem stepState_length (c : Balance) (r : ℚ) (s : PlanState)
    (h : s.di < s.debtors.length) :
    (stepState c r s h).debtors.length = s.debtors.length := by
  rw [stepState_debtors, List.length_set]

theorem stepState_strip (c : Balance) (r : ℚ) (s : PlanState)
    (h : s.di < s.debtors.length) :
    (stepState c r s h).debtors.map stripNB = s.debtors.map stripNB := by
  rw [stepState_debtors]
  exact bmap_set_same s.debtors s.di h _ stripNB rfl

theorem stepState_map_userId (c : Balance) (r : ℚ) (s : PlanState)
    (h : s.di < s.debtors.length) :
    (stepState c r s h).debtors.map (fun b => b.userId) =
      s.debtors.map (fun b => b.userId) := by
  rw [stepState_debtors]
  exact bmap_set_same s.debtors s.di h _ (fun b => b.userId) rfl

theorem stepState_bget?_self (c : Balance) (r : ℚ) (s : PlanState)
    (h : s.di < s.debtors.length) :
    bget? (stepState c r s h).debtors s.di =
      some { s.debtors.get ⟨s.di, h⟩ with
        netBalance := (s.debtors.get ⟨s.di, h⟩).netBalance + stepAmt r s h } := by
  rw [stepState_debtors]
  exact bget?_set_self s.debtors s.di _ h

theorem stepState_bget?_other (c : Balance) (r : ℚ) (s : PlanState)
    (h : s.di < s.debtors.length) (i : ℕ) (hi : s.di ≠ i) :
    bget? (stepState c r s h).debtors i = bget? s.debtors i := by
  rw [stepState_debtors]
  exact bget?_set_other s.debtors s.di i _ hi

theorem stepAmt_le_left (r : ℚ) (s : PlanState) (h : s.di < s.debtors.length) :
    stepAmt r s h ≤ r := min_le_left _ _

theorem stepAmt_le_abs (r : ℚ) (s : PlanState) (h : s.di < s.debtors.length) :
    stepAmt r s h ≤ |(s.debtors.get ⟨s.di, h⟩).netBalance| := min_le_right _ _

theorem tol_le_stepAmt (r : ℚ) (s : PlanState) (h : s.di < s.debtors.length)
    (hinv : PlanInv s) (hr : tol < r) : tol ≤ stepAmt r s h :=
  le_min (le_of_lt hr) (hinv.tail_big s.di _ (le_refl _) (bget?_eq_get s.debtors s.di h))

theorem stepState_inv (c : Balance) (r : ℚ) (s : PlanState)
    (h : s.di < s.debtors.length) (hinv : PlanInv s) :
    PlanInv (stepState c r s h) := by
  have hd0 : (s.debtors.get ⟨s.di, h⟩).netBalance ≤ 0 :=
    hinv.nonpos _ (List.get_mem _ _ _)
  have habs : |(s.debtors.get ⟨s.di, h⟩).netBalance| =
      -(s.debtors.get ⟨s.di, h⟩).netBalance := abs_of_nonpos hd0
  have hd'0 : (s.debtors.get ⟨s.di, h⟩).netBalance + stepAmt r s h ≤ 0 := by
    have h1 := stepAmt_le_abs r s h
    rw [habs] at h1
    linarith
  constructor
  · rw [stepState_di, stepState_length]
    split_ifs <;> omega
  · intro b hb
    rw [stepState_debtors] at hb
    rcases List.mem_or_eq_of_mem_set hb with hb | hb
    · exact hinv.nonpos b hb
    · rw [hb]
      exact hd'0
  · intro i b hdi hb
    rw [stepState_di] at hdi
    by_cases hc : |(s.debtors.get ⟨s.di, h⟩).netBalance + stepAmt r s h| < tol
    · rw [if_pos hc] at hdi
      have hne : s.di ≠ i := by omega
      rw [stepState_bget?_other c r s h i hne] at hb
      exact hinv.tail_big i b (by omega) hb
    · rw [if_neg hc] at hdi
      by_cases hie : i = s.di
      · subst hie
        rw [stepState_bget?_self c r s h] at hb
        cases hb
        exact not_lt.mp hc
      · have hne : s.di ≠ i := fun hh => hie hh.symm
        rw [stepState_bget?_other c r s h i hne] at hb
        exact hinv.tail_big i b (by omega) hb
  · intro i b hdi hb
    rw [stepState_di] at hdi
    by_cases hc : |(s.debtors.get ⟨s.di, h⟩).netBalance + stepAmt r s h| < tol
    · rw [if_pos hc] at hdi
      by_cases hie : i = s.di
      · subst hie
        rw [stepState_bget?_self c r s h] at hb
        cases hb
        exact hc
      · have hne : s.di ≠ i := fun hh => hie hh.symm
        rw [stepState_bget?_other c r s h i hne] at hb
        exact hinv.head_small i b (by omega) hb
    · rw [if_neg hc] at hdi
      have hne : s.di ≠ i := by omega
      rw [stepState_bget?_other c r s h i hne] at hb
      exact hinv.head_small i b (by omega) hb

/-- Main specification of the inner loop, proved by induction on the fuel.
As long as the invariant holds and the fuel exceeds the number of debtors not
yet passed, the loop appends a block `Δ` of settlements all directed to the
creditor, each of at least the tolerance, drawn from the debtor array; every
debtor's net balance grows by exactly the amount drawn from it and stays
nonpositive; and the creditor's remaining credit `r - sumAmt Δ` is
nonnegative and, unless the debtor array was exhausted, at most `0.01`. -/
theorem innerLoop_spec (c : Balance) (fuel : ℕ) :
    ∀ (r : ℚ) (s : PlanState), PlanInv s → 0 ≤ r →
    s.debtors.length - s.di < fuel →
    ∃ Δ : List Settlement,
      (innerLoop c fuel r s).settlements = s.settlements ++ Δ ∧
      (innerLoop c fuel r s).debtors.map stripNB = s.debtors.map stripNB ∧
      s.di ≤ (innerLoop c fuel r s).di ∧
      PlanInv (innerLoop c fuel r s) ∧
      (∀ x ∈ Δ, x.toUser = c.userId ∧ tol ≤ x.amount ∧
        x.fromUser ∈ s.debtors.map (fun b => b.userId)) ∧
      ((s.debtors.map (fun b => b.userId)).Nodup →
        ∀ (i : ℕ) (b b' : Balance), bget? s.debtors i = some b →
        bget? (innerLoop c fuel r s).debtors i = some b' →
        b.netBalance ≤ b'.netBalance ∧
        b'.netBalance = b.netBalance + sumFromUser Δ b.userId) ∧
      0 ≤ r - sumAmt Δ ∧
      (r - sumAmt Δ ≤ tol ∨
        (innerLoop c fuel r s).di = (innerLoop c fuel r s).debtors.length) := by
  induction fuel with
  | zero =>
    intro r s _ _ hfuel
    exact absurd hfuel (Nat.not_lt_zero _)
  | succ fuel ih =>
    intro r s hinv hr hfuel
    by_cases hg : tol < r ∧ s.di < s.debtors.length
    · have h2 : s.di < s.debtors.length := hg.2
      have hstep : innerLoop c (fuel + 1) r s =
          innerLoop c fuel (r - stepAmt r s h2) (stepState c r s h2) := by
        rw [innerLoop, dif_pos hg]
      have hamt0 : 0 ≤ stepAmt r s h2 :=
        le_trans (le_of_lt tol_pos) (tol_le_stepAmt r s h2 hinv hg.1)
      have hd0 : (s.debtors.get ⟨s.di, h2⟩).netBalance ≤ 0 :=
        hinv.nonpos _ (List.get_mem _ _ _)
      have habs : |(s.debtors.get ⟨s.di, h2⟩).netBalance| =
          -(s.debtors.get ⟨s.di, h2⟩).netBalance := abs_of_nonpos hd0
      by_cases hadv : |(s.debtors.get ⟨s.di, h2⟩).netBalance + stepAmt r s h2| < tol
      · -- the current debtor is settled and the cursor advances
        have hinv2 := stepState_inv c r s h2 hinv
        have hr2 : 0 ≤ r - stepAmt r s h2 := sub_nonneg.mpr (stepAmt_le_left r s h2)
        have hlen2 := stepState_length c r s h2
        have hdi2 : (stepState c r s h2).di = s.di + 1 := by
          rw [stepState_di, if_pos hadv]
        have hfuel2 : (stepState c r s h2).debtors.length - (stepState c r s h2).di
            < fuel := by
          rw [hlen2, hdi2]
          omega
        obtain ⟨Δ', e1, e2, e3, e4, e5, e6, e7, e8⟩ :=
          ih (r - stepAmt r s h2) (stepState c r s h2) hinv2 hr2 hfuel2
        refine ⟨⟨(s.debtors.get ⟨s.di, h2⟩).userId, c.userId, stepAmt r s h2⟩ :: Δ',
          ?_, ?_, ?_, ?_, ?_, ?_, ?_, ?_⟩
        · rw [hstep, e1, stepState_settlements]
          simp
        · rw [hstep]
          exact e2.trans (stepState_strip c r s h2)
        · rw [hstep]
          rw [hdi2] at e3
          omega
        · rw [hstep]
          exact e4
        · intro x hx
          rcases List.mem_cons.mp hx with rfl | hx
          · exact ⟨rfl, tol_le_stepAmt r s h2 hinv hg.1,
              List.mem_map.mpr ⟨_, List.get_mem _ _ _, rfl⟩⟩
          · obtain ⟨ht, ha, hf⟩ := e5 x hx
            refine ⟨ht, ha, ?_⟩
            rw [← stepState_map_userId c r s h2]
            exact hf
        · intro hnd i b b' hb hb'
          have hnd2 : ((stepState c r s h2).debtors.map (fun b => b.userId)).Nodup := by
            rw [stepState_map_userId]
            exact hnd
          rw [hstep] at hb'
          by_cases hie : i = s.di
          · subst hie
            have hbd : b = s.debtors.get ⟨s.di, h2⟩ := by
              rw [bget?_eq_get s.debtors s.di h2] at hb
              exact (Option.some.inj hb).symm
            obtain ⟨hmono, heq⟩ := e6 hnd2 s.di _ b' (stepState_bget?_self c r s h2) hb'
            constructor
            · calc b.netBalance ≤ b.netBalance + stepAmt r s h2 := by linarith
                _ = (s.debtors.get ⟨s.di, h2⟩).netBalance + stepAmt r s h2 := by rw [hbd]
                _ ≤ b'.netBalance := by
                    have h3 := hmono
                    simp only at h3
                    exact h3
            · rw [heq, sumFromUser_cons, if_pos (by rw [hbd])]
              rw [hbd]
              simp only
              ring
          · have hne : s.di ≠ i := fun hh => hie hh.symm
            have hb2 : bget? (stepState c r s h2).debtors i = some b := by
              rw [stepState_bget?_other c r s h2 i hne]
              exact hb
            obtain ⟨hmono, heq⟩ := e6 hnd2 i b b' hb2 hb'
            refine ⟨hmono, ?_⟩
            rw [heq, sumFromUser_cons, if_neg ?_]
            · ring
            · intro hfu
              exact hie (bget?_userId_inj s.debtors hnd i s.di b _
                hb (bget?_eq_get s.debtors s.di h2) hfu.symm)
        · rw [sumAmt_cons]
          have := e7
          linarith
        · rw [hstep, sumAmt_cons]
          rcases e8 with e8 | e8
          · left
            linarith
          · right
            exact e8
      · -- the creditor's remaining credit is exhausted by this settlement
        have hamt : stepAmt r s h2 = r := by
          rcases le_or_lt |(s.debtors.get ⟨s.di, h2⟩).netBalance| r with hle | hlt
          · exfalso
            apply hadv
            rw [show stepAmt r s h2 = |(s.debtors.get ⟨s.di, h2⟩).netBalance| from
              min_eq_right hle, habs]
            simpa using tol_pos
          · exact min_eq_left (le_of_lt hlt)
        have hzero : r - stepAmt r s h2 = 0 := by
          rw [hamt]
          ring
        have hstop : innerLoop c (fuel + 1) r s = stepState c r s h2 := by
          rw [hstep, hzero, innerLoop_of_le c fuel 0 _ (le_of_lt tol_pos)]
        refine ⟨[⟨(s.debtors.get ⟨s.di, h2⟩).userId, c.userId, stepAmt r s h2⟩],
          ?_, ?_, ?_, ?_, ?_, ?_, ?_, ?_⟩
        · rw [hstop, stepState_settlements]
        · rw [hstop]
          exact stepState_strip c r s h2
        · rw [hstop, stepState_di, if_neg hadv]
        · rw [hstop]
          exact stepState_inv c r s h2 hinv
        · intro x hx
          rcases List.mem_singleton.mp hx with rfl
          exact ⟨rfl, tol_le_stepAmt r s h2 hinv hg.1,
            List.mem_map.mpr ⟨_, List.get_mem _ _ _, rfl⟩⟩
        · intro hnd i b b' hb hb'
          rw [hstop] at hb'
          by_cases hie : i = s.di
          · subst hie
            have hbd : b = s.debtors.get ⟨s.di, h2⟩ := by
              rw [bget?_eq_get s.debtors s.di h2] at hb
              exact (Option.some.inj hb).symm
            rw [stepState_bget?_self c r s h2] at hb'
            have hb'd := (Option.some.inj hb').symm
            constructor
            · rw [hb'd, hbd]
              simp only
              linarith
            · rw [hb'd, sumFromUser_cons, if_pos (by rw [hbd]), hbd]
              simp [sumFromUser]
          · have hne : s.di ≠ i := fun hh => hie hh.symm
            rw [stepState_bget?_other c r s h2 i hne, hb] at hb'
            have hb'b : b' = b := (Option.some.inj hb').symm
            rw [hb'b]
            refine ⟨le_refl _, ?_⟩
            rw [sumFromUser_cons, if_neg ?_]
            · simp [sumFromUser]
            · intro hfu
              exact hie (bget?_userId_inj s.debtors hnd i s.di b _
                hb (bget?_eq_get s.debtors s.di h2) hfu.symm)
        · rw [sumAmt_cons, hamt]
          simp [sumAmt]
        · left
          rw [sumAmt_cons, hamt]
          simp [sumAmt]
          exact le_of_lt tol_pos
    · have hstop : innerLoop c (fuel + 1) r s = s := by
        rw [innerLoop, dif_neg hg]
      refine ⟨[], by rw [hstop]; simp, by rw [hstop], by rw [hstop], by rw [hstop]; exact hinv,
        by simp, ?_, ?_, ?_⟩
      · intro _ i b b' hb hb'
        rw [hstop, hb] at hb'
        have := Option.some.inj hb'
        subst this
        exact ⟨le_refl _, by simp [sumFromUser]⟩
      · simpa [sumAmt] using hr
      · rcases not_and_or.mp hg with hcase | hcase
        · left
          have := not_lt.mp hcase
          simp only [sumAmt, List.map_nil, List.sum_nil, sub_zero]
          exact this
        · right
          rw [hstop]
          exact le_antisymm hinv.di_le (not_lt.mp hcase)

theorem userId_map_of_strip_map_eq (l1 l2 : List Balance)
    (h : l1.map stripNB = l2.map stripNB) :
    l1.map (fun b => b.userId) = l2.map (fun b => b.userId) := by
  have h2 := congrArg (List.map Prod.fst) h
  rw [List.map_map, List.map_map] at h2
  exact h2

/-- Main specification of the outer loop over the creditors.  `Δs` is the
list of settlement blocks, one block per creditor, emitted in order. -/
theorem outerLoop_spec :
    ∀ (cs : List Balance) (s : PlanState), PlanInv s →
    (∀ c ∈ cs, tol < c.netBalance) →
    ∃ Δs : List (List Settlement),
      Δs.length = cs.length ∧
      (outerLoop cs s).settlements = s.settlements ++ Δs.flatten ∧
      (outerLoop cs s).debtors.map stripNB = s.debtors.map stripNB ∧
      s.di ≤ (outerLoop cs s).di ∧
      PlanInv (outerLoop cs s) ∧
      (∀ x ∈ Δs.flatten, tol ≤ x.amount ∧
        x.fromUser ∈ s.debtors.map (fun b => b.userId) ∧
        ∃ c ∈ cs, x.toUser = c.userId) ∧
      (∀ (j : ℕ) (hj : j < cs.length) (hj' : j < Δs.length),
        (∀ x ∈ Δs.get ⟨j, hj'⟩, x.toUser = (cs.get ⟨j, hj⟩).userId) ∧
        ∃ rres : ℚ, sumAmt (Δs.get ⟨j, hj'⟩) = (cs.get ⟨j, hj⟩).netBalance - rres ∧
          0 ≤ rres ∧
          (rres ≤ tol ∨ (outerLoop cs s).di = (outerLoop cs s).debtors.length)) ∧
      ((s.debtors.map (fun b => b.userId)).Nodup →
        ∀ (i : ℕ) (b b' : Balance), bget? s.debtors i = some b →
        bget? (outerLoop cs s).debtors i = some b' →
        b.netBalance ≤ b'.netBalance ∧
        b'.netBalance = b.netBalance + sumFromUser Δs.flatten b.userId) := by
  intro cs
  induction cs with
  | nil =>
    intro s hinv _
    refine ⟨[], rfl, by simp [outerLoop], rfl, le_refl _, hinv, by simp, ?_, ?_⟩
    · intro j hj
      simp at hj
    · intro _ i b b' hb hb'
      rw [show outerLoop [] s = s from rfl, hb] at hb'
      have hbb : b' = b := (Option.some.inj hb').symm
      rw [hbb]
      exact ⟨le_refl _, by simp [sumFromUser]⟩
  | cons c cs ih =>
    intro s hinv hcs
    have hc : tol < c.netBalance := hcs c (List.mem_cons_self c cs)
    have hr : 0 ≤ c.netBalance := le_of_lt (lt_trans tol_pos hc)
    have hfuel : s.debtors.length - s.di < s.debtors.length + 1 := by omega
    obtain ⟨Δc, e1, e2, e3, e4, e5, e6, e7, e8⟩ :=
      innerLoop_spec c (s.debtors.length + 1) c.netBalance s hinv hr hfuel
    have houter : outerLoop (c :: cs) s =
        outerLoop cs (innerLoop c (s.debtors.length + 1) c.netBalance s) := rfl
    obtain ⟨Δs', f1, f2, f3, f4, f5, f6, f7, f8⟩ :=
      ih (innerLoop c (s.debtors.length + 1) c.netBalance s) e4
        (fun c' hc' => hcs c' (List.mem_cons_of_mem c hc'))
    have hlen1 : (innerLoop c (s.debtors.length + 1) c.netBalance s).debtors.length =
        s.debtors.length := length_eq_of_strip_map_eq _ _ e2
    have hids1 : (innerLoop c (s.debtors.length + 1) c.netBalance s).debtors.map
        (fun b => b.userId) = s.debtors.map (fun b => b.userId) :=
      userId_map_of_strip_map_eq _ _ e2
    have hlenout : (outerLoop (c :: cs) s).debtors.length = s.debtors.length := by
      rw [houter]
      rw [length_eq_of_strip_map_eq _ _ f3, hlen1]
    refine ⟨Δc :: Δs', by simp [f1], ?_, ?_, ?_, ?_, ?_, ?_, ?_⟩
    · rw [houter, f2, e1, List.flatten_cons, List.append_assoc]
    · rw [houter, f3]
      exact e2
    · rw [houter]
      exact le_trans e3 f4
    · rw [houter]
      exact f5
    · intro x hx
      rw [List.flatten_cons, List.mem_append] at hx
      rcases hx with hx | hx
      · obtain ⟨ht, ha, hf⟩ := e5 x hx
        exact ⟨ha, hf, c, List.mem_cons_self c cs, ht⟩
      · obtain ⟨ha, hf, c', hc', ht⟩ := f6 x hx
        rw [hids1] at hf
        exact ⟨ha, hf, c', List.mem_cons_of_mem c hc', ht⟩
    · intro j hj hj'
      cases j with
      | zero =>
        constructor
        · intro x hx
          exact (e5 x hx).1
        · refine ⟨c.netBalance - sumAmt Δc, by
            show sumAmt Δc = c.netBalance - (c.netBalance - sumAmt Δc)
            ring, e7, ?_⟩
          rcases e8 with e8 | e8
          · left
            linarith
          · right
            rw [houter]
            have hd1 : (innerLoop c (s.debtors.length + 1) c.netBalance s).di ≤
                (outerLoop cs (innerLoop c (s.debtors.length + 1) c.netBalance s)).di := f4
            have hd2 := f5.di_le
            have hl : (outerLoop cs (innerLoop c (s.debtors.length + 1)
                c.netBalance s)).debtors.length =
                (innerLoop c (s.debtors.length + 1) c.netBalance s).debtors.length :=
              length_eq_of_strip_map_eq _ _ f3
            omega
      | succ j =>
        have hj2 : j < cs.length := by simpa using hj
        have hj2' : j < Δs'.length := by simpa using hj'
        obtain ⟨g1, rres, g2, g3, g4⟩ := f7 j hj2 hj2'
        refine ⟨?_, rres, ?_, g3, ?_⟩
        · intro x hx
          exact g1 x hx
        · exact g2
        · rcases g4 with g4 | g4
          · left
            exact g4
          · right
            rw [houter]
            exact g4
    · intro hnd i b b' hb hb'
      have hnd1 : ((innerLoop c (s.debtors.length + 1) c.netBalance s).debtors.map
          (fun b => b.userId)).Nodup := by
        rw [hids1]
        exact hnd
      rw [houter] at hb'
      have hi : i < s.debtors.length := bget?_lt_length _ _ _ hb
      obtain ⟨b1, hb1⟩ := bget?_of_lt_length
        (innerLoop c (s.debtors.length + 1) c.netBalance s).debtors i (by rw [hlen1]; exact hi)
      have hstripi := strip_bget?_of_map_eq _ _ e2 i
      rw [hb, hb1] at hstripi
      have huid : b1.userId = b.userId := by
        have h3 : stripNB b1 = stripNB b := by simpa using hstripi
        exact congrArg Prod.fst h3
      obtain ⟨m1, q1⟩ := e6 hnd i b b1 hb hb1
      obtain ⟨m2, q2⟩ := f8 hnd1 i b1 b' hb1 hb'
      constructor
      · exact le_trans m1 m2
      · rw [q2, q1, List.flatten_cons, sumFromUser_append, huid]
        ring

/-! The initial planner state and the filtered, sorted creditor and debtor
lists. -/

theorem mem_debtorsOf (bs : List Balance) (b : Balance) :
    b ∈ debtorsOf bs ↔ b ∈ bs ∧ b.netBalance < -tol := by
  unfold debtorsOf
  rw [List.mem_insertionSort, List.mem_filter]
  simp

theorem mem_creditorsOf (bs : List Balance) (b : Balance) :
    b ∈ creditorsOf bs ↔ b ∈ bs ∧ tol < b.netBalance := by
  unfold creditorsOf
  rw [List.mem_insertionSort, List.mem_filter]
  simp

theorem debtorsOf_perm (bs : List Balance) :
    List.Perm (debtorsOf bs) (bs.filter (fun b => b.netBalance < -tol)) :=
  List.perm_insertionSort _ _

theorem creditorsOf_perm (bs : List Balance) :
    List.Perm (creditorsOf bs) (bs.filter (fun b => tol < b.netBalance)) :=
  List.perm_insertionSort _ _

theorem sum_net_debtorsOf (bs : List Balance) :
    ((debtorsOf bs).map (fun b => b.netBalance)).sum =
      ((bs.filter (fun b => b.netBalance < -tol)).map (fun b => b.netBalance)).sum :=
  List.Perm.sum_eq (List.Perm.map _ (debtorsOf_perm bs))

theorem sum_net_creditorsOf (bs : List Balance) :
    ((creditorsOf bs).map (fun b => b.netBalance)).sum =
      ((bs.filter (fun b => tol < b.netBalance)).map (fun b => b.netBalance)).sum :=
  List.Perm.sum_eq (List.Perm.map _ (creditorsOf_perm bs))

theorem length_debtorsOf (bs : List Balance) :
    (debtorsOf bs).length = (bs.filter (fun b => b.netBalance < -tol)).length :=
  List.length_insertionSort _ _

theorem length_creditorsOf (bs : List Balance) :
    (creditorsOf bs).length = (bs.filter (fun b => tol < b.netBalance)).length :=
  List.length_insertionSort _ _

theorem nodup_ids_debtorsOf (bs : List Balance)
    (hnd : (bs.map (fun b => b.userId)).Nodup) :
    ((debtorsOf bs).map (fun b => b.userId)).Nodup := by
  have h1 : ((bs.filter (fun b => b.netBalance < -tol)).map (fun b => b.userId)).Nodup :=
    ((List.filter_sublist bs).map _).nodup hnd
  exact (List.Perm.nodup_iff (List.Perm.map _ (debtorsOf_perm bs))).mpr h1

theorem nodup_ids_creditorsOf (bs : List Balance)
    (hnd : (bs.map (fun b => b.userId)).Nodup) :
    ((creditorsOf bs).map (fun b => b.userId)).Nodup := by
  have h1 : ((bs.filter (fun b => tol < b.netBalance)).map (fun b => b.userId)).Nodup :=
    ((List.filter_sublist bs).map _).nodup hnd
  exact (List.Perm.nodup_iff (List.Perm.map _ (creditorsOf_perm bs))).mpr h1

theorem initial_inv (bs : List Balance) :
    PlanInv ⟨debtorsOf bs, 0, []⟩ := by
  constructor
  · exact Nat.zero_le _
  · intro b hb
    have h1 := ((mem_debtorsOf bs b).mp hb).2
    have h2 := tol_pos
    linarith
  · intro i b _ hb
    have h1 := ((mem_debtorsOf bs b).mp (bget?_mem _ _ _ hb)).2
    have h2 : b.netBalance < 0 := by
      have := tol_pos
      linarith
    rw [abs_of_neg h2]
    linarith
  · intro i b hi _
    exact absurd hi (Nat.not_lt_zero _)

theorem creditorsOf_pos (bs : List Balance) :
    ∀ c ∈ creditorsOf bs, tol < c.netBalance :=
  fun c hc => ((mem_creditorsOf bs c).mp hc).2

theorem ebs_fst (bs : List Balance) :
    (eventBalanceSettlements bs).1 =
      (outerLoop (creditorsOf bs) ⟨debtorsOf bs, 0, []⟩).settlements := rfl

theorem ebs_debtors (bs : List Balance) :
    (eventBalanceSettlements bs).2.1 =
      (outerLoop (creditorsOf bs) ⟨debtorsOf bs, 0, []⟩).debtors := rfl

theorem ebs_di (bs : List Balance) :
    (eventBalanceSettlements bs).2.2 =
      (outerLoop (creditorsOf bs) ⟨debtorsOf bs, 0, []⟩).di := rfl

/-! Arithmetic bookkeeping lemmas used to assemble the planner theorems. -/

theorem sum_map_add {α : Type} (l : List α) (f g : α → ℚ) :
    (l.map (fun x => f x + g x)).sum = (l.map f).sum + (l.map g).sum := by
  induction l with
  | nil => simp
  | cons x l ih =>
    simp only [List.map_cons, List.sum_cons, ih]
    ring

theorem sumAmt_flatten (L : List (List Settlement)) :
    sumAmt L.flatten = (L.map sumAmt).sum := by
  induction L with
  | nil => simp [sumAmt]
  | cons Δ L ih => rw [List.flatten_cons, sumAmt_append, ih, List.map_cons, List.sum_cons]

theorem sumToUser_flatten (L : List (List Settlement)) (u : String) :
    sumToUser L.flatten u = (L.map (fun Δ => sumToUser Δ u)).sum := by
  induction L with
  | nil => simp [sumToUser]
  | cons Δ L ih =>
    rw [List.flatten_cons, sumToUser_append, ih, List.map_cons, List.sum_cons]

theorem sumFromUser_flatten (L : List (List Settlement)) (u : String) :
    sumFromUser L.flatten u = (L.map (fun Δ => sumFromUser Δ u)).sum := by
  induction L with
  | nil => simp [sumFromUser]
  | cons Δ L ih =>
    rw [List.flatten_cons, sumFromUser_append, ih, List.map_cons, List.sum_cons]

theorem sumToUser_of_all (Δ : List Settlement) (u : String)
    (h : ∀ x ∈ Δ, x.toUser = u) : sumToUser Δ u = sumAmt Δ := by
  rw [sumToUser, sumAmt, List.filter_eq_self.mpr (by
    intro x hx
    simpa using h x hx)]

theorem sum_ite_userId (l : List Balance) (hnd : (l.map (fun b => b.userId)).Nodup)
    (u : String) (hu : u ∈ l.map (fun b => b.userId)) (a : ℚ) :
    (l.map (fun b => if u = b.userId then a else 0)).sum = a := by
  induction l with
  | nil => simp at hu
  | cons b l ih =>
    simp only [List.map_cons, List.nodup_cons] at hnd
    simp only [List.map_cons, List.sum_cons]
    rcases (by simpa using hu : u = b.userId ∨ ∃ b' ∈ l, b'.userId = u) with hub | hub
    · rw [if_pos hub]
      have hz : (l.map (fun b => if u = b.userId then a else 0)).sum = 0 := by
        apply List.sum_eq_zero
        intro x hx
        obtain ⟨b', hb', rfl⟩ := List.mem_map.mp hx
        rw [if_neg]
        intro hub'
        exact hnd.1 (List.mem_map.mpr ⟨b', hb', hub'.symm.trans hub⟩)
      rw [hz]
      ring
    · obtain ⟨b', hb', hbu⟩ := hub
      rw [if_neg, ih hnd.2 (List.mem_map.mpr ⟨b', hb', hbu⟩)]
      · ring
      · intro hub'
        exact hnd.1 (List.mem_map.mpr ⟨b', hb', hbu.trans hub'⟩)

theorem sum_fromUsers_total (l : List Balance) (S : List Settlement)
    (hnd : (l.map (fun b => b.userId)).Nodup)
    (h : ∀ x ∈ S, x.fromUser ∈ l.map (fun b => b.userId)) :
    (l.map (fun b => sumFromUser S b.userId)).sum = sumAmt S := by
  induction S with
  | nil =>
    rw [show sumAmt [] = 0 from rfl]
    apply List.sum_eq_zero
    intro x hx
    obtain ⟨b, hb, rfl⟩ := List.mem_map.mp hx
    simp [sumFromUser]
  | cons x S ih =>
    have hmap : l.map (fun b => sumFromUser (x :: S) b.userId) =
        l.map (fun b => (if x.fromUser = b.userId then x.amount else 0) +
          sumFromUser S b.userId) := by
      apply List.map_congr_left
      intro b _
      rw [sumFromUser_cons]
    rw [hmap, sum_map_add, sumAmt_cons,
      sum_ite_userId l hnd x.fromUser (h x (List.mem_cons_self x S)) x.amount,
      ih (fun y hy => h y (List.mem_cons_of_mem x hy))]

theorem sum_map_eq_single {α : Type} (L : List α) (f : α → ℚ) :
    ∀ (j : ℕ) (hj : j < L.length),
    (∀ (k : ℕ) (hk : k < L.length), k ≠ j → f (L.get ⟨k, hk⟩) = 0) →
    (L.map f).sum = f (L.get ⟨j, hj⟩) := by
  induction L with
  | nil =>
    intro j hj
    simp at hj
  | cons a L ih =>
    intro j hj h0
    cases j with
    | zero =>
      simp only [List.map_cons, List.sum_cons]
      have hz : (L.map f).sum = 0 := by
        apply List.sum_eq_zero
        intro x hx
        obtain ⟨b, hb, rfl⟩ := List.mem_map.mp hx
        obtain ⟨k, hbk⟩ := List.mem_iff_get.mp hb
        rw [← hbk]
        exact h0 (k.val + 1) (by simpa using k.isLt) (by omega)
      rw [hz]
      show f a + 0 = f a
      ring
    | succ j =>
      simp only [List.map_cons, List.sum_cons]
      have ha : f a = 0 := h0 0 (by simp) (by omega)
      rw [ha, ih j (by simpa using hj)
        (fun k hk hkj => h0 (k + 1) (by simpa using hk) (by omega)), zero_add]
      rfl

theorem sum_le_const_mul (l : List ℚ) (c : ℚ) (h : ∀ x ∈ l, x ≤ c) :
    l.sum ≤ c * l.length := by
  induction l with
  | nil => simp
  | cons x l ih =>
    rw [List.sum_cons, List.length_cons]
    have h1 := h x (List.mem_cons_self x l)
    have h2 := ih (fun y hy => h y (List.mem_cons_of_mem x hy))
    push_cast
    nlinarith

theorem zipRes_sum (cs : List Balance) :
    ∀ (L : List (List Settlement)), cs.length = L.length →
    (List.zipWith (fun c Δ => c.netBalance - sumAmt Δ) cs L).sum =
      (cs.map (fun b => b.netBalance)).sum - (L.map sumAmt).sum := by
  induction cs with
  | nil =>
    intro L hL
    rw [show L = [] from (List.length_eq_zero.mp hL.symm)]
    simp
  | cons c cs ih =>
    intro L hL
    cases L with
    | nil => simp at hL
    | cons Δ L =>
      simp only [List.zipWith_cons_cons, List.sum_cons, List.map_cons]
      rw [ih L (by simpa using hL)]
      ring

theorem zipRes_mem (cs : List Balance) :
    ∀ (L : List (List Settlement)) (j : ℕ) (hj : j < cs.length) (hj' : j < L.length),
    (cs.get ⟨j, hj⟩).netBalance - sumAmt (L.get ⟨j, hj'⟩) ∈
      List.zipWith (fun c Δ => c.netBalance - sumAmt Δ) cs L := by
  induction cs with
  | nil =>
    intro L j hj
    simp at hj
  | cons c cs ih =>
    intro L j hj hj'
    cases L with
    | nil => simp at hj'
    | cons Δ L =>
      cases j with
      | zero => exact List.mem_cons_self _ _
      | succ j =>
        exact List.mem_cons_of_mem _ (ih L j (by simpa using hj) (by simpa using hj'))

theorem zipRes_forall (cs : List Balance) :
    ∀ (L : List (List Settlement)) (P : ℚ → Prop),
    (∀ (j : ℕ) (hj : j < cs.length) (hj' : j < L.length),
      P ((cs.get ⟨j, hj⟩).netBalance - sumAmt (L.get ⟨j, hj'⟩))) →
    ∀ x ∈ List.zipWith (fun c Δ => c.netBalance - sumAmt Δ) cs L, P x := by
  induction cs with
  | nil =>
    intro L P _ x hx
    simp at hx
  | cons c cs ih =>
    intro L P hP x hx
    cases L with
    | nil => simp at hx
    | cons Δ L =>
      rw [List.zipWith_cons_cons] at hx
      rcases List.mem_cons.mp hx with rfl | hx
      · exact hP 0 (by simp) (by simp)
      · exact ih L P (fun j hj hj' => hP (j + 1) (by simpa using hj) (by simpa using hj')) x hx

theorem zipRes_length (cs : List Balance) (L : List (List Settlement))
    (h : cs.length = L.length) :
    (List.zipWith (fun c Δ => c.netBalance - sumAmt Δ) cs L).length = cs.length := by
  rw [List.length_zipWith]
  omega

theorem bget?_of_mem (l : List Balance) (b : Balance) (h : b ∈ l) :
    ∃ i, bget? l i = some b := by
  induction l with
  | nil => simp at h
  | cons a l ih =>
    rcases List.mem_cons.mp h with rfl | h
    · exact ⟨0, rfl⟩
    · obtain ⟨i, hi⟩ := ih h
      exact ⟨i + 1, hi⟩

theorem mem_userId_inj (l : List Balance) (hnd : (l.map (fun b => b.userId)).Nodup)
    (b b' : Balance) (hb : b ∈ l) (hb' : b' ∈ l) (h : b.userId = b'.userId) :
    b = b' := by
  obtain ⟨i, hi⟩ := bget?_of_mem l b hb
  obtain ⟨j, hj⟩ := bget?_of_mem l b' hb'
  have hij := bget?_userId_inj l hnd i j b b' hi hj h
  subst hij
  rw [hi] at hj
  exact Option.some.inj hj

theorem sum_net_pointwise (S : List Settlement) :
    ∀ (l1 l2 : List Balance), l1.length = l2.length →
    (∀ (i : ℕ) (b b' : Balance), bget? l1 i = some b → bget? l2 i = some b' →
      b'.netBalance = b.netBalance + sumFromUser S b.userId) →
    (l2.map (fun b => b.netBalance)).sum =
      (l1.map (fun b => b.netBalance)).sum +
        (l1.map (fun b => sumFromUser S b.userId)).sum := by
  intro l1
  induction l1 with
  | nil =>
    intro l2 hlen _
    rw [show l2 = [] from (List.length_eq_zero.mp hlen.symm)]
    simp
  | cons a l1 ih =>
    intro l2 hlen hpt
    cases l2 with
    | nil => simp at hlen
    | cons a' l2 =>
      simp only [List.map_cons, List.sum_cons]
      rw [hpt 0 a a' rfl rfl, ih l2 (by simpa using hlen)
        (fun i b b' hb hb' => hpt (i + 1) b b' hb hb')]
      ring

/-- Sum partition of the input balances into creditors, debtors and
near-zero participants. -/
theorem partition3_sum (bs : List Balance) :
    (bs.map (fun b => b.netBalance)).sum =
      ((bs.filter (fun b => tol < b.netBalance)).map (fun b => b.netBalance)).sum +
      ((bs.filter (fun b => b.netBalance < -tol)).map (fun b => b.netBalance)).sum +
      ((bs.filter (fun b => |b.netBalance| ≤ tol)).map (fun b => b.netBalance)).sum := by
  induction bs with
  | nil => simp
  | cons b bs ih =>
    by_cases h1 : tol < b.netBalance
    · have h2 : ¬ b.netBalance < -tol := by
        have := tol_pos
        intro hcon
        linarith
      have h3 : ¬ |b.netBalance| ≤ tol :=
        not_le.mpr (lt_of_lt_of_le h1 (le_abs_self _))
      have eC : (b :: bs).filter (fun x => tol < x.netBalance) =
          b :: bs.filter (fun x => tol < x.netBalance) := by
        rw [List.filter_cons, if_pos (by simpa using h1)]
      have eD : (b :: bs).filter (fun x => x.netBalance < -tol) =
          bs.filter (fun x => x.netBalance < -tol) := by
        rw [List.filter_cons, if_neg (by simpa using h2)]
      have eN : (b :: bs).filter (fun x => |x.netBalance| ≤ tol) =
          bs.filter (fun x => |x.netBalance| ≤ tol) := by
        rw [List.filter_cons, if_neg (by simpa using h3)]
      rw [List.map_cons, List.sum_cons, eC, eD, eN, List.map_cons, List.sum_cons, ih]
      ring
    · by_cases h2 : b.netBalance < -tol
      · have h3 : ¬ |b.netBalance| ≤ tol := by
          rw [abs_of_neg (by
            have := tol_pos
            linarith)]
          intro hcon
          linarith
        have eC : (b :: bs).filter (fun x => tol < x.netBalance) =
            bs.filter (fun x => tol < x.netBalance) := by
          rw [List.filter_cons, if_neg (by simpa using h1)]
        have eD : (b :: bs).filter (fun x => x.netBalance < -tol) =
            b :: bs.filter (fun x => x.netBalance < -tol) := by
          rw [List.filter_cons, if_pos (by simpa using h2)]
        have eN : (b :: bs).filter (fun x => |x.netBalance| ≤ tol) =
            bs.filter (fun x => |x.netBalance| ≤ tol) := by
          rw [List.filter_cons, if_neg (by simpa using h3)]
        rw [List.map_cons, List.sum_cons, eC, eD, eN, List.map_cons, List.sum_cons, ih]
        ring
      · have h3 : |b.netBalance| ≤ tol := abs_le.mpr ⟨by linarith, by linarith⟩
        have eC : (b :: bs).filter (fun x => tol < x.netBalance) =
            bs.filter (fun x => tol < x.netBalance) := by
          rw [List.filter_cons, if_neg (by simpa using h1)]
        have eD : (b :: bs).filter (fun x => x.netBalance < -tol) =
            bs.filter (fun x => x.netBalance < -tol) := by
          rw [List.filter_cons, if_neg (by simpa using h2)]
        have eN : (b :: bs).filter (fun x => |x.netBalance| ≤ tol) =
            b :: bs.filter (fun x => |x.netBalance| ≤ tol) := by
          rw [List.filter_cons, if_pos (by simpa using h3)]
        rw [List.map_cons, List.sum_cons, eC, eD, eN, List.map_cons, List.sum_cons, ih]
        ring

/-- Length partition of the input balances. -/
theorem partition3_length (bs : List Balance) :
    bs.length =
      (bs.filter (fun b => tol < b.netBalance)).length +
      (bs.filter (fun b => b.netBalance < -tol)).length +
      (bs.filter (fun b => |b.netBalance| ≤ tol)).length := by
  induction bs with
  | nil => simp
  | cons b bs ih =>
    by_cases h1 : tol < b.netBalance
    · have h2 : ¬ b.netBalance < -tol := by
        have := tol_pos
        intro hcon
        linarith
      have h3 : ¬ |b.netBalance| ≤ tol :=
        not_le.mpr (lt_of_lt_of_le h1 (le_abs_self _))
      have eC : (b :: bs).filter (fun x => tol < x.netBalance) =
          b :: bs.filter (fun x => tol < x.netBalance) := by
        rw [List.filter_cons, if_pos (by simpa using h1)]
      have eD : (b :: bs).filter (fun x => x.netBalance < -tol) =
          bs.filter (fun x => x.netBalance < -tol) := by
        rw [List.filter_cons, if_neg (by simpa using h2)]
      have eN : (b :: bs).filter (fun x => |x.netBalance| ≤ tol) =
          bs.filter (fun x => |x.netBalance| ≤ tol) := by
        rw [List.filter_cons, if_neg (by simpa using h3)]
      rw [List.length_cons, eC, eD, eN, List.length_cons]
      omega
    · by_cases h2 : b.netBalance < -tol
      · have h3 : ¬ |b.netBalance| ≤ tol := by
          rw [abs_of_neg (by
            have := tol_pos
            linarith)]
          intro hcon
          linarith
        have eC : (b :: bs).filter (fun x => tol < x.netBalance) =
            bs.filter (fun x => tol < x.netBalance) := by
          rw [List.filter_cons, if_neg (by simpa using h1)]
        have eD : (b :: bs).filter (fun x => x.netBalance < -tol) =
            b :: bs.filter (fun x => x.netBalance < -tol) := by
          rw [List.filter_cons, if_pos (by simpa using h2)]
        have eN : (b :: bs).filter (fun x => |x.netBalance| ≤ tol) =
            bs.filter (fun x => |x.netBalance| ≤ tol) := by
          rw [List.filter_cons, if_neg (by simpa using h3)]
        rw [List.length_cons, eC, eD, eN, List.length_cons]
        omega
      · have h3 : |b.netBalance| ≤ tol := abs_le.mpr ⟨by linarith, by linarith⟩
        have eC : (b :: bs).filter (fun x => tol < x.netBalance) =
            bs.filter (fun x => tol < x.netBalance) := by
          rw [List.filter_cons, if_neg (by simpa using h1)]
        have eD : (b :: bs).filter (fun x => x.netBalance < -tol) =
            bs.filter (fun x => x.netBalance < -tol) := by
          rw [List.filter_cons, if_neg (by simpa using h2)]
        have eN : (b :: bs).filter (fun x => |x.netBalance| ≤ tol) =
            b :: bs.filter (fun x => |x.netBalance| ≤ tol) := by
          rw [List.filter_cons, if_pos (by simpa using h3)]
        rw [List.length_cons, eC, eD, eN, List.length_cons]
        omega

theorem sum_map_neg {α : Type} (l : List α) (f : α → ℚ) :
    (l.map (fun x => -f x)).sum = -(l.map f).sum := by
  induction l with
  | nil => simp
  | cons x l ih =>
    simp only [List.map_cons, List.sum_cons, ih]
    ring

/-- The net balance of a participant after applying every emitted settlement
in the direction that models an executed payment: the paying user's
netBalance rises by the amount (debt repaid), the receiving user's falls. -/
def appliedNet (bs : List Balance) (b : Balance) : ℚ :=
  b.netBalance + sumFromUser (eventBalanceSettlements bs).1 b.userId -
    sumToUser (eventBalanceSettlements bs).1 b.userId

/-- The net balance of a participant after applying every emitted settlement
with the signs written in the claim: amount subtracted from the paying
user's netBalance and added to the receiving user's. -/
def claimedAppliedNet (bs : List Balance) (b : Balance) : ℚ :=
  b.netBalance - sumFromUser (eventBalanceSettlements bs).1 b.userId +
    sumToUser (eventBalanceSettlements bs).1 b.userId

/-- C1 (corrected): for every input list of per-user balances (distinct user
ids) whose net balances sum to zero, applying in order every settlement
emitted by the Settlement Planner — adding its amount to the paying user's
netBalance and subtracting it from the receiving user's netBalance, which is
the direction that models an executed repayment — leaves every participant's
netBalance within `0.01 × (number of participants)` of zero.  The claim's
stated sign convention (subtract from the payer) and its absolute `0.01`
bound both fail on the code; see the counterexample. -/
theorem c1_settlements_bound_residuals (bs : List Balance)
    (hnd : (bs.map (fun b => b.userId)).Nodup)
    (hsum : (bs.map (fun b => b.netBalance)).sum = 0) :
    ∀ b ∈ bs, |appliedNet bs b| ≤ tol * bs.length := by
  intro b hb
  obtain ⟨Δs, p1, p2, p3, p4, p5, p6, p7, p8⟩ :=
    outerLoop_spec (creditorsOf bs) ⟨debtorsOf bs, 0, []⟩ (initial_inv bs)
      (creditorsOf_pos bs)
  have hS : (eventBalanceSettlements bs).1 = Δs.flatten := by
    rw [ebs_fst, p2]
    exact List.nil_append _
  have hndd : ((debtorsOf bs).map (fun b => b.userId)).Nodup := nodup_ids_debtorsOf bs hnd
  have hndc : ((creditorsOf bs).map (fun b => b.userId)).Nodup :=
    nodup_ids_creditorsOf bs hnd
  have hlenfin : (outerLoop (creditorsOf bs) ⟨debtorsOf bs, 0, []⟩).debtors.length =
      (debtorsOf bs).length := length_eq_of_strip_map_eq _ _ p3
  have hn1 : 1 ≤ bs.length := List.length_pos.mpr (List.ne_nil_of_mem hb)
  have hn1q : (1 : ℚ) ≤ (bs.length : ℚ) := by exact_mod_cast hn1
  have htoln : tol ≤ tol * bs.length := by
    nlinarith [tol_pos]
  -- totals of the three classes
  have hTCc : ((creditorsOf bs).map (fun b => b.netBalance)).sum =
      ((bs.filter (fun b => tol < b.netBalance)).map (fun b => b.netBalance)).sum :=
    sum_net_creditorsOf bs
  have hTDd : ((debtorsOf bs).map (fun b => b.netBalance)).sum =
      ((bs.filter (fun b => b.netBalance < -tol)).map (fun b => b.netBalance)).sum :=
    sum_net_debtorsOf bs
  have hpart := partition3_sum bs
  rw [hsum] at hpart
  have hplen := partition3_length bs
  -- the total emitted equals the total drawn from the debtors
  have hfromS : ∀ x ∈ Δs.flatten, x.fromUser ∈ (debtorsOf bs).map (fun b => b.userId) :=
    fun x hx => (p6 x hx).2.1
  have hsumS : ((debtorsOf bs).map (fun b => sumFromUser Δs.flatten b.userId)).sum =
      sumAmt Δs.flatten :=
    sum_fromUsers_total (debtorsOf bs) Δs.flatten hndd hfromS
  have hptfin := p8 hndd
  have hfinsum : ((outerLoop (creditorsOf bs) ⟨debtorsOf bs, 0, []⟩).debtors.map
      (fun b => b.netBalance)).sum =
      ((debtorsOf bs).map (fun b => b.netBalance)).sum + sumAmt Δs.flatten := by
    rw [← hsumS]
    exact sum_net_pointwise Δs.flatten (debtorsOf bs) _ hlenfin.symm
      (fun i b0 b0' hb0 hb0' => (hptfin i b0 b0' hb0 hb0').2)
  -- the per-creditor residual list
  have hlenΔ : (creditorsOf bs).length = Δs.length := p1.symm
  have hrs_sum : (List.zipWith (fun c Δ => c.netBalance - sumAmt Δ)
      (creditorsOf bs) Δs).sum =
      ((creditorsOf bs).map (fun b => b.netBalance)).sum - sumAmt Δs.flatten := by
    rw [zipRes_sum (creditorsOf bs) Δs hlenΔ, sumAmt_flatten]
  have hrs_nonneg : ∀ x ∈ List.zipWith (fun c Δ => c.netBalance - sumAmt Δ)
      (creditorsOf bs) Δs, 0 ≤ x := by
    apply zipRes_forall
    intro j hj hj'
    obtain ⟨_, rres, g2, g3, _⟩ := p7 j hj hj'
    rw [g2]
    linarith
  -- bound on the near-zero total
  have hTNbound : |((bs.filter (fun b => |b.netBalance| ≤ tol)).map
      (fun b => b.netBalance)).sum| ≤
      tol * (bs.filter (fun b => |b.netBalance| ≤ tol)).length := by
    apply abs_sum_le_of_forall
    intro x hx
    exact (by simpa using (List.of_mem_filter hx) : |x.netBalance| ≤ tol)
  by_cases h1 : tol < b.netBalance
  · -- b is a creditor
    have hbc : b ∈ creditorsOf bs := (mem_creditorsOf bs b).mpr ⟨hb, h1⟩
    have hfrom0 : sumFromUser (eventBalanceSettlements bs).1 b.userId = 0 := by
      rw [hS]
      apply sumFromUser_eq_zero
      intro x hx hfu
      obtain ⟨d, hd, hdu⟩ := List.mem_map.mp (hfromS x hx)
      have hdb : d = b := mem_userId_inj bs hnd d b
        ((mem_debtorsOf bs d).mp hd).1 hb (by rw [hdu, hfu])
      have hdd := ((mem_debtorsOf bs d).mp hd).2
      rw [hdb] at hdd
      have := tol_pos
      linarith
    obtain ⟨⟨j, hj⟩, hgb⟩ := List.mem_iff_get.mp hbc
    have hj' : j < Δs.length := by omega
    have hto : sumToUser (eventBalanceSettlements bs).1 b.userId =
        sumAmt (Δs.get ⟨j, hj'⟩) := by
      rw [hS, sumToUser_flatten]
      rw [sum_map_eq_single Δs (fun Δ => sumToUser Δ b.userId) j hj']
      · exact sumToUser_of_all _ _ (by
          intro x hx
          rw [(p7 j hj hj').1 x hx, hgb])
      · intro k hk hkj
        apply sumToUser_eq_zero
        intro x hx hxu
        apply hkj
        have hku : ((creditorsOf bs).get ⟨k, by omega⟩).userId = b.userId := by
          rw [← (p7 k (by omega) hk).1 x hx, hxu]
        exact bget?_userId_inj (creditorsOf bs) hndc k j _ _
          (bget?_eq_get _ _ _) (hgb ▸ bget?_eq_get _ _ hj) hku
    obtain ⟨_, rres, g2, g3, g4⟩ := p7 j hj hj'
    have happ : appliedNet bs b = rres := by
      rw [appliedNet, hfrom0, hto, g2, hgb]
      ring
    rw [happ, abs_of_nonneg g3]
    rcases g4 with g4 | g4
    · linarith
    · -- the debtor array was exhausted: bound through the global residual sum
      have hrmem : ((creditorsOf bs).get ⟨j, hj⟩).netBalance -
          sumAmt (Δs.get ⟨j, hj'⟩) ∈
          List.zipWith (fun c Δ => c.netBalance - sumAmt Δ) (creditorsOf bs) Δs :=
        zipRes_mem (creditorsOf bs) Δs j hj hj'
      have hrres : rres ≤ ((creditorsOf bs).map (fun b => b.netBalance)).sum -
          sumAmt Δs.flatten := by
        have hle := List.single_le_sum hrs_nonneg _ hrmem
        rw [hrs_sum] at hle
        have : ((creditorsOf bs).get ⟨j, hj⟩).netBalance - sumAmt (Δs.get ⟨j, hj'⟩) =
            rres := by
          rw [g2, hgb]
          ring
        linarith
      -- with the cursor at the end, every debtor is settled within tolerance
      have hfinsmall : ∀ b' ∈ (outerLoop (creditorsOf bs)
          ⟨debtorsOf bs, 0, []⟩).debtors, |b'.netBalance| ≤ tol := by
        intro b' hb'
        obtain ⟨i, hi⟩ := bget?_of_mem _ b' hb'
        have hilen := bget?_lt_length _ _ _ hi
        exact le_of_lt (p5.head_small i b' (by omega) hi)
      have hfinbound : |((outerLoop (creditorsOf bs) ⟨debtorsOf bs, 0, []⟩).debtors.map
          (fun b => b.netBalance)).sum| ≤ tol * (debtorsOf bs).length := by
        rw [← hlenfin]
        exact abs_sum_le_of_forall _ _ _ hfinsmall
      have hdlen : (debtorsOf bs).length =
          (bs.filter (fun b => b.netBalance < -tol)).length := length_debtorsOf bs
      rw [hdlen] at hfinbound
      have habs1 := abs_le.mp hfinbound
      have habs2 := abs_le.mp hTNbound
      have hcast : (bs.length : ℚ) =
          ((bs.filter (fun b => tol < b.netBalance)).length : ℚ) +
          ((bs.filter (fun b => b.netBalance < -tol)).length : ℚ) +
          ((bs.filter (fun b => |b.netBalance| ≤ tol)).length : ℚ) := by
        exact_mod_cast hplen
      have hclen : (0 : ℚ) ≤ ((bs.filter (fun b => tol < b.netBalance)).length : ℚ) := by
        positivity
      nlinarith [tol_pos]
  · by_cases h2 : b.netBalance < -tol
    · -- b is a debtor
      have hbd : b ∈ debtorsOf bs := (mem_debtorsOf bs b).mpr ⟨hb, h2⟩
      have hto0 : sumToUser (eventBalanceSettlements bs).1 b.userId = 0 := by
        rw [hS]
        apply sumToUser_eq_zero
        intro x hx hxu
        obtain ⟨c, hc, hcu⟩ := (p6 x hx).2.2
        have hcb : c = b := mem_userId_inj bs hnd c b
          ((mem_creditorsOf bs c).mp hc).1 hb (by rw [← hcu, hxu])
        have hcc := ((mem_creditorsOf bs c).mp hc).2
        rw [hcb] at hcc
        have := tol_pos
        linarith
      obtain ⟨i, hi⟩ := bget?_of_mem _ b hbd
      have hilen := bget?_lt_length _ _ _ hi
      obtain ⟨b', hb'⟩ := bget?_of_lt_length
        (outerLoop (creditorsOf bs) ⟨debtorsOf bs, 0, []⟩).debtors i (by omega)
      obtain ⟨hmono, heq⟩ := hptfin i b b' hi hb'
      have happ : appliedNet bs b = b'.netBalance := by
        rw [appliedNet, hto0, hS, heq]
        ring
      have hb'np : b'.netBalance ≤ 0 := p5.nonpos b' (bget?_mem _ _ _ hb')
      rw [happ, abs_of_nonpos hb'np]
      by_cases hdi : i < (outerLoop (creditorsOf bs) ⟨debtorsOf bs, 0, []⟩).di
      · have := p5.head_small i b' hdi hb'
        rw [abs_of_nonpos hb'np] at this
        linarith
      · -- the cursor never passed this debtor, so no creditor was exhausted
        have hdilen : (outerLoop (creditorsOf bs) ⟨debtorsOf bs, 0, []⟩).di ≠
            (outerLoop (creditorsOf bs) ⟨debtorsOf bs, 0, []⟩).debtors.length := by
          intro hcon
          omega
        have hall : ∀ x ∈ List.zipWith (fun c Δ => c.netBalance - sumAmt Δ)
            (creditorsOf bs) Δs, x ≤ tol := by
          apply zipRes_forall
          intro j hj hj'
          obtain ⟨_, rres, g2, _, g4⟩ := p7 j hj hj'
          rcases g4 with g4 | g4
          · rw [g2]
            linarith
          · exact absurd g4 hdilen
        have hrs_le : (List.zipWith (fun c Δ => c.netBalance - sumAmt Δ)
            (creditorsOf bs) Δs).sum ≤
            tol * (creditorsOf bs).length := by
          have h3 := sum_le_const_mul _ tol hall
          rw [zipRes_length (creditorsOf bs) Δs hlenΔ] at h3
          exact h3
        -- single debtor residual against the total unsettled debt
        have hneg : -b'.netBalance ≤
            -((outerLoop (creditorsOf bs) ⟨debtorsOf bs, 0, []⟩).debtors.map
              (fun b => b.netBalance)).sum := by
          rw [← sum_map_neg]
          apply List.single_le_sum
          · intro x hx
            obtain ⟨b0, hb0, rfl⟩ := List.mem_map.mp hx
            have := p5.nonpos b0 hb0
            linarith
          · exact List.mem_map.mpr ⟨b', bget?_mem _ _ _ hb', rfl⟩
        have hclen : (creditorsOf bs).length =
            (bs.filter (fun b => tol < b.netBalance)).length := length_creditorsOf bs
        rw [hclen] at hrs_le
        have habs2 := abs_le.mp hTNbound
        have hcast : (bs.length : ℚ) =
            ((bs.filter (fun b => tol < b.netBalance)).length : ℚ) +
            ((bs.filter (fun b => b.netBalance < -tol)).length : ℚ) +
            ((bs.filter (fun b => |b.netBalance| ≤ tol)).length : ℚ) := by
          exact_mod_cast hplen
        have hdlenq : (0 : ℚ) ≤
            ((bs.filter (fun b => b.netBalance < -tol)).length : ℚ) := by
          positivity
        nlinarith [tol_pos]
    · -- b is a near-zero participant
      have hbn : |b.netBalance| ≤ tol := abs_le.mpr ⟨by linarith, by linarith⟩
      have hfrom0 : sumFromUser (eventBalanceSettlements bs).1 b.userId = 0 := by
        rw [hS]
        apply sumFromUser_eq_zero
        intro x hx hfu
        obtain ⟨d, hd, hdu⟩ := List.mem_map.mp (hfromS x hx)
        have hdb : d = b := mem_userId_inj bs hnd d b
          ((mem_debtorsOf bs d).mp hd).1 hb (by rw [hdu, hfu])
        have hdd := ((mem_debtorsOf bs d).mp hd).2
        rw [hdb] at hdd
        exact h2 hdd
      have hto0 : sumToUser (eventBalanceSettlements bs).1 b.userId = 0 := by
        rw [hS]
        apply sumToUser_eq_zero
        intro x hx hxu
        obtain ⟨c, hc, hcu⟩ := (p6 x hx).2.2
        have hcb : c = b := mem_userId_inj bs hnd c b
          ((mem_creditorsOf bs c).mp hc).1 hb (by rw [← hcu, hxu])
        have hcc := ((mem_creditorsOf bs c).mp hc).2
        rw [hcb] at hcc
        exact h1 hcc
      rw [appliedNet, hfrom0, hto0]
      calc |b.netBalance + 0 - 0| = |b.netBalance| := by rw [add_zero, sub_zero]
        _ ≤ tol := hbn
        _ ≤ tol * bs.length := htoln

theorem sum_filter_tol_le_pos (bs : List Balance) :
    ((bs.filter (fun b => tol < b.netBalance)).map (fun b => b.netBalance)).sum ≤
      ((bs.filter (fun b => 0 < b.netBalance)).map (fun b => b.netBalance)).sum := by
  induction bs with
  | nil => simp
  | cons b bs ih =>
    by_cases h1 : tol < b.netBalance
    · have h2 : 0 < b.netBalance := lt_trans tol_pos h1
      have eC : (b :: bs).filter (fun x => tol < x.netBalance) =
          b :: bs.filter (fun x => tol < x.netBalance) := by
        rw [List.filter_cons, if_pos (by simpa using h1)]
      have eP : (b :: bs).filter (fun x => 0 < x.netBalance) =
          b :: bs.filter (fun x => 0 < x.netBalance) := by
        rw [List.filter_cons, if_pos (by simpa using h2)]
      rw [eC, eP, List.map_cons, List.map_cons, List.sum_cons, List.sum_cons]
      linarith
    · have eC : (b :: bs).filter (fun x => tol < x.netBalance) =
          bs.filter (fun x => tol < x.netBalance) := by
        rw [List.filter_cons, if_neg (by simpa using h1)]
      rw [eC]
      by_cases h2 : 0 < b.netBalance
      · have eP : (b :: bs).filter (fun x => 0 < x.netBalance) =
            b :: bs.filter (fun x => 0 < x.netBalance) := by
          rw [List.filter_cons, if_pos (by simpa using h2)]
        rw [eP, List.map_cons, List.sum_cons]
        linarith
      · have eP : (b :: bs).filter (fun x => 0 < x.netBalance) =
            bs.filter (fun x => 0 < x.netBalance) := by
          rw [List.filter_cons, if_neg (by simpa using h2)]
        rw [eP]
        exact ih

/-- C4 (corrected): for every input balance list whose net balances sum to
zero, the total amount of the emitted settlements is at most the sum of the
positive net balances.  Exact equality fails on the code because balances
within the `0.01` tolerance are discarded before matching and each creditor
may keep a residual of up to `0.01`; see the counterexample. -/
theorem c4_settlement_total_le_positive (bs : List Balance)
    (hsum : (bs.map (fun b => b.netBalance)).sum = 0) :
    sumAmt (eventBalanceSettlements bs).1 ≤
      ((bs.filter (fun b => 0 < b.netBalance)).map (fun b => b.netBalance)).sum := by
  obtain ⟨Δs, p1, p2, p3, p4, p5, p6, p7, p8⟩ :=
    outerLoop_spec (creditorsOf bs) ⟨debtorsOf bs, 0, []⟩ (initial_inv bs)
      (creditorsOf_pos bs)
  have hS : (eventBalanceSettlements bs).1 = Δs.flatten := by
    rw [ebs_fst, p2]
    exact List.nil_append _
  have hlenΔ : (creditorsOf bs).length = Δs.length := p1.symm
  have hrs_sum : (List.zipWith (fun c Δ => c.netBalance - sumAmt Δ)
      (creditorsOf bs) Δs).sum =
      ((creditorsOf bs).map (fun b => b.netBalance)).sum - sumAmt Δs.flatten := by
    rw [zipRes_sum (creditorsOf bs) Δs hlenΔ, sumAmt_flatten]
  have hrs_nonneg : ∀ x ∈ List.zipWith (fun c Δ => c.netBalance - sumAmt Δ)
      (creditorsOf bs) Δs, 0 ≤ x := by
    apply zipRes_forall
    intro j hj hj'
    obtain ⟨_, rres, g2, g3, _⟩ := p7 j hj hj'
    rw [g2]
    linarith
  have hsumnn : 0 ≤ (List.zipWith (fun c Δ => c.netBalance - sumAmt Δ)
      (creditorsOf bs) Δs).sum := List.sum_nonneg hrs_nonneg
  have h1 : sumAmt Δs.flatten ≤ ((creditorsOf bs).map (fun b => b.netBalance)).sum := by
    linarith
  rw [hS]
  calc sumAmt Δs.flatten ≤ ((creditorsOf bs).map (fun b => b.netBalance)).sum := h1
    _ = ((bs.filter (fun b => tol < b.netBalance)).map (fun b => b.netBalance)).sum :=
        sum_net_creditorsOf bs
    _ ≤ ((bs.filter (fun b => 0 < b.netBalance)).map (fun b => b.netBalance)).sum :=
        sum_filter_tol_le_pos bs

/-- C6 (corrected): every settlement emitted by the Planner has an amount of
at least `0.01` (hence strictly positive); its payer is one of the filtered
debtors and its receiver one of the filtered creditors, so a user all of
whose records are within `0.01` of zero appears in no settlement.  The
claim's assertion that amounts are rounded to 2 decimal places fails on the
code — rounding happens only in the display layer; see the counterexample. -/
theorem c6_settlement_amounts (bs : List Balance) :
    ∀ x ∈ (eventBalanceSettlements bs).1,
      tol ≤ x.amount ∧ 0 < x.amount ∧
      x.fromUser ∈ (debtorsOf bs).map (fun b => b.userId) ∧
      x.toUser ∈ (creditorsOf bs).map (fun b => b.userId) ∧
      (∀ u, (∀ b ∈ bs, b.userId = u → |b.netBalance| ≤ tol) →
        x.fromUser ≠ u ∧ x.toUser ≠ u) := by
  intro x hx
  obtain ⟨Δs, p1, p2, p3, p4, p5, p6, p7, p8⟩ :=
    outerLoop_spec (creditorsOf bs) ⟨debtorsOf bs, 0, []⟩ (initial_inv bs)
      (creditorsOf_pos bs)
  have hS : (eventBalanceSettlements bs).1 = Δs.flatten := by
    rw [ebs_fst, p2]
    exact List.nil_append _
  rw [hS] at hx
  obtain ⟨ha, hf, c, hc, ht⟩ := p6 x hx
  refine ⟨ha, lt_of_lt_of_le tol_pos ha, hf, ?_, ?_⟩
  · exact List.mem_map.mpr ⟨c, hc, ht.symm⟩
  · intro u hu
    constructor
    · intro hfu
      obtain ⟨d, hd, hdu⟩ := List.mem_map.mp hf
      have hdd := (mem_debtorsOf bs d).mp hd
      have h3 := hu d hdd.1 (by rw [hdu, hfu])
      have h4 : |d.netBalance| = -d.netBalance := abs_of_neg (by
        have := tol_pos
        linarith [hdd.2])
      rw [h4] at h3
      linarith [hdd.2]
    · intro htu
      have hcc := (mem_creditorsOf bs c).mp hc
      have h3 := hu c hcc.1 (by rw [← ht, htu])
      have h4 : |c.netBalance| = c.netBalance := abs_of_pos (lt_trans tol_pos hcc.2)
      rw [h4] at h3
      linarith [hcc.2]

theorem outerLoop_no_debtors : ∀ (cs : List Balance) (s : PlanState),
    s.debtors = [] → outerLoop cs s = s := by
  intro cs
  induction cs with
  | nil => exact fun s _ => rfl
  | cons c cs ih =>
    intro s hs
    have hinner : innerLoop c (s.debtors.length + 1) c.netBalance s = s := by
      rw [hs]
      rw [show ([] : List Balance).length + 1 = 1 from rfl, innerLoop, dif_neg]
      intro hg
      rw [hs] at hg
      exact absurd hg.2 (by simp)
    rw [outerLoop, hinner]
    exact ih s hs

/-- C7 (confirmed): empty input is not an error for either component.  An
empty expense list makes the Aggregator return an empty balance list, and a
balance list with no creditors (no net balance above `0.01`) or no debtors
(none below `-0.01`) makes the Planner return an empty settlement list. -/
theorem c7_empty_inputs :
    getBalance [] = [] ∧
    ∀ bs : List Balance,
      ((∀ b ∈ bs, ¬ tol < b.netBalance) ∨ (∀ b ∈ bs, ¬ b.netBalance < -tol)) →
      (eventBalanceSettlements bs).1 = [] := by
  constructor
  · rfl
  · intro bs hcase
    rcases hcase with hnc | hnd
    · have hcred : creditorsOf bs = [] := by
        unfold creditorsOf
        rw [List.filter_eq_nil_iff.mpr (by
          intro b hb
          simpa using hnc b hb)]
        rfl
      rw [ebs_fst, hcred]
      rfl
    · have hdebt : debtorsOf bs = [] := by
        unfold debtorsOf
        rw [List.filter_eq_nil_iff.mpr (by
          intro b hb
          simpa using hnd b hb)]
        rfl
      rw [ebs_fst]
      rw [outerLoop_no_debtors (creditorsOf bs) ⟨debtorsOf bs, 0, []⟩ hdebt]

/-- C2 (confirmed): the Aggregator returns exactly one balance record per
user id that appears as a payer or as a split participant; that record's
totalPaid is the sum of the amounts of the expenses the user paid (0 when
the user only appears in splits), its totalOwed is the sum of the user's
split shares, and the returned records carry
`netBalance = totalPaid - totalOwed`. -/
theorem c2_aggregator_totals (es : List Expense) :
    ((aggBalances es).map Prod.fst = collectIds es) ∧
    (collectIds es).Nodup ∧
    (∀ u, u ∈ collectIds es ↔ appears es u) ∧
    (∀ u b, lookupB (aggBalances es) u = some b →
      b.totalPaid = sumPaidBy es u ∧ b.totalOwed = sumOwedBy es u) ∧
    getBalance es = (aggBalances es).map
      (fun p => { p.2 with netBalance := p.2.totalPaid - p.2.totalOwed }) := by
  refine ⟨aggBalances_keys es, nodup_collectIds es, mem_collectIds es, ?_, rfl⟩
  intro u b hb
  have hmem : u ∈ (aggBalances es).map Prod.fst :=
    (lookupB_isSome_iff_mem_keys _ u).mp (by rw [hb]; exact Option.some_ne_none b)
  rw [aggBalances_keys es] at hmem
  obtain ⟨b0, hb0, hp, ho, _⟩ := lookupB_aggBalances es u ((mem_collectIds es u).mp hmem)
  rw [hb] at hb0
  have hbb := Option.some.inj hb0
  rw [← hbb] at hp ho
  exact ⟨hp, ho⟩

/-- C3 (corrected): unconditionally, the sum of `totalPaid` over the
Aggregator's output equals the sum of the expense amounts and the sum of
`totalOwed` equals the sum of all split shares; when each expense's shares
sum to its amount within `0.01`, the two totals and the net-balance sum
agree only within `0.01 × (number of expenses)`.  The claimed exact
equalities and the `0.01 × participants` bound fail on the code; see the
counterexample. -/
theorem c3_conservation_bounds (es : List Expense)
    (h : ∀ e ∈ es, |sumShares e - e.amount| ≤ tol) :
    ((getBalance es).map (fun b => b.totalPaid)).sum = (es.map (fun e => e.amount)).sum ∧
    ((getBalance es).map (fun b => b.totalOwed)).sum = (es.map sumShares).sum ∧
    |((getBalance es).map (fun b => b.totalOwed)).sum -
      ((getBalance es).map (fun b => b.totalPaid)).sum| ≤ tol * es.length ∧
    |((getBalance es).map (fun b => b.netBalance)).sum| ≤ tol * es.length := by
  have hdiff : (es.map sumShares).sum - (es.map (fun e => e.amount)).sum =
      (es.map (fun e => sumShares e - e.amount)).sum := (sum_map_sub es _ _).symm
  have hbound : |(es.map (fun e => sumShares e - e.amount)).sum| ≤ tol * es.length :=
    abs_sum_le_of_forall es _ tol h
  refine ⟨getBalance_sum_paid es, getBalance_sum_owed es, ?_, ?_⟩
  · rw [getBalance_sum_paid, getBalance_sum_owed, hdiff]
    exact hbound
  · rw [getBalance_sum_net]
    rw [show (es.map (fun e => e.amount)).sum - (es.map sumShares).sum =
      -((es.map sumShares).sum - (es.map (fun e => e.amount)).sum) from by ring,
      abs_neg, hdiff]
    exact hbound

/-- C10 (confirmed): every balance record returned by the Aggregator has a
non-null `user` object: although each record starts with `user = null`,
every key of the mapping appears as a payer or split participant of some
expense, and the accumulation pass overwrites that record's `user` field. -/
theorem c10_user_field_filled (es : List Expense) :
    ∀ rec ∈ getBalance es, rec.user ≠ none := by
  intro rec hrec
  obtain ⟨p, hp, rfl⟩ := List.mem_map.mp hrec
  show p.2.user ≠ none
  have hnd : ((aggBalances es).map Prod.fst).Nodup := by
    rw [aggBalances_keys es]
    exact nodup_collectIds es
  have hlook : lookupB (aggBalances es) p.1 = some p.2 :=
    lookupB_of_mem_of_nodupkeys _ _ _ (by
      obtain ⟨k, v⟩ := p
      exact hp) hnd
  have hkey : p.1 ∈ (aggBalances es).map Prod.fst :=
    (lookupB_isSome_iff_mem_keys _ _).mp (by rw [hlook]; exact Option.some_ne_none _)
  rw [aggBalances_keys es] at hkey
  obtain ⟨e, he, ht⟩ := (mem_collectIds es p.1).mp hkey
  have hsome : p.2.user.isSome :=
    expensesFold_userSome es _ p.1 ⟨e, he, ht⟩ p.2 hlook
  intro hcon
  rw [hcon] at hsome
  cases hsome

theorem bget?_map (f : Balance → Balance) (l : List Balance) (i : ℕ) :
    bget? (l.map f) i = (bget? l i).map f := by
  induction l generalizing i with
  | nil => rfl
  | cons a l ih =>
    cases i with
    | zero => rfl
    | succ i => exact ih i

theorem find?_eq_of_nodup_ids (l : List Balance)
    (hnd : (l.map (fun b => b.userId)).Nodup) :
    ∀ (k : ℕ) (bf : Balance), bget? l k = some bf →
    l.find? (fun d => d.userId = bf.userId) = some bf := by
  induction l with
  | nil =>
    intro k bf hk
    simp [bget?] at hk
  | cons a l ih =>
    intro k bf hk
    simp only [List.map_cons, List.nodup_cons] at hnd
    cases k with
    | zero =>
      rw [bget?] at hk
      cases hk
      rw [List.find?_cons_of_pos _ (by simp)]
    | succ k =>
      have hmem : bf ∈ l := bget?_mem l k bf hk
      have hne : ¬ a.userId = bf.userId := by
        intro hcon
        exact hnd.1 (hcon ▸ List.mem_map.mpr ⟨bf, hmem, rfl⟩)
      rw [List.find?_cons_of_neg _ (by simpa using hne)]
      exact ih hnd.2 k bf hk

/-- The state of the caller's balance array after a Planner invocation: the
JavaScript loop mutates the debtor records in place through the aliases held
in the filtered `debtors` array, so each record that passed the debtor
filter now carries the netBalance left in the Planner's debtor array, while
every other record is untouched. -/
def finalBalances (bs : List Balance) : List Balance :=
  bs.map (fun b =>
    if b.netBalance < -tol then
      ((eventBalanceSettlements bs).2.1.find? (fun d => d.userId = b.userId)).getD b
    else b)

/-- C5 (corrected): the Settlement Planner is deterministic — a pure
function of its input value — but it does not leave its input records
unchanged: each debtor record's `netBalance` is increased in place toward
zero (never past it) by the amounts drawn from it, while `userId`,
`totalPaid`, `totalOwed` and all non-debtor records are untouched.  The
claim that every field of every input record is left unchanged fails on the
code; see the counterexample. -/
theorem c5_planner_mutation_profile (bs : List Balance)
    (hnd : (bs.map (fun b => b.userId)).Nodup) :
    (finalBalances bs).length = bs.length ∧
    ∀ (i : ℕ) (b b' : Balance), bget? bs i = some b →
      bget? (finalBalances bs) i = some b' →
      b'.userId = b.userId ∧ b'.totalPaid = b.totalPaid ∧ b'.totalOwed = b.totalOwed ∧
      b.netBalance ≤ b'.netBalance ∧ b'.netBalance ≤ max b.netBalance 0 := by
  constructor
  · exact List.length_map _ _
  intro i b b' hb hb'
  rw [finalBalances, bget?_map, hb] at hb'
  have hb'v : b' = if b.netBalance < -tol then
      ((eventBalanceSettlements bs).2.1.find? (fun d => d.userId = b.userId)).getD b
    else b := (Option.some.inj hb').symm
  by_cases hdeb : b.netBalance < -tol
  · rw [if_pos hdeb] at hb'v
    obtain ⟨Δs, p1, p2, p3, p4, p5, p6, p7, p8⟩ :=
      outerLoop_spec (creditorsOf bs) ⟨debtorsOf bs, 0, []⟩ (initial_inv bs)
        (creditorsOf_pos bs)
    have hndd : ((debtorsOf bs).map (fun b => b.userId)).Nodup :=
      nodup_ids_debtorsOf bs hnd
    have hbd : b ∈ debtorsOf bs :=
      (mem_debtorsOf bs b).mpr ⟨bget?_mem bs i b hb, hdeb⟩
    obtain ⟨k, hk⟩ := bget?_of_mem _ b hbd
    have hklen := bget?_lt_length _ _ _ hk
    have hlenfin : (outerLoop (creditorsOf bs) ⟨debtorsOf bs, 0, []⟩).debtors.length =
        (debtorsOf bs).length := length_eq_of_strip_map_eq _ _ p3
    obtain ⟨bf, hbf⟩ := bget?_of_lt_length
      (outerLoop (creditorsOf bs) ⟨debtorsOf bs, 0, []⟩).debtors k (by omega)
    have hstrip := strip_bget?_of_map_eq _ _ p3 k
    rw [hk, hbf] at hstrip
    have hstripv : stripNB bf = stripNB b := by simpa using hstrip
    have hfindids : (outerLoop (creditorsOf bs)
        ⟨debtorsOf bs, 0, []⟩).debtors.map (fun b => b.userId) =
        (debtorsOf bs).map (fun b => b.userId) := userId_map_of_strip_map_eq _ _ p3
    have hndf : ((outerLoop (creditorsOf bs)
        ⟨debtorsOf bs, 0, []⟩).debtors.map (fun b => b.userId)).Nodup := by
      rw [hfindids]
      exact hndd
    have hfuid : bf.userId = b.userId := congrArg Prod.fst hstripv
    have hfind : (eventBalanceSettlements bs).2.1.find?
        (fun d => d.userId = b.userId) = some bf := by
      rw [ebs_debtors]
      rw [← hfuid]
      exact find?_eq_of_nodup_ids _ hndf k bf hbf
    rw [hfind] at hb'v
    rw [hb'v]
    obtain ⟨hmono, _⟩ := p8 hndd k b bf hk hbf
    have hnp : bf.netBalance ≤ 0 := p5.nonpos bf (bget?_mem _ _ _ hbf)
    refine ⟨hfuid, congrArg (fun q => q.2.1) hstripv, congrArg (fun q => q.2.2) hstripv,
      hmono, le_trans hnp (le_max_right _ _)⟩
  · rw [if_neg hdeb] at hb'v
    rw [hb'v]
    exact ⟨rfl, rfl, rfl, le_refl _, le_max_left _ _⟩

/-! The write path for event expenses, from `createEventExpense` and
`updateEventExpense` in `src/lib/trpc/routers/friend.ts`.  The database is a
pure record of expense and split rows; the authorization queries are
abstracted into a boolean (the claim under study conditions on an authorized
caller), and a thrown error is an `Except.error` carrying the message, paired
with the database state visible after the call. -/

/-- One split of the mutation input. -/
structure SplitInput where
  userId : String
  share : ℚ
deriving DecidableEq

/-- The parsed input of `createEventExpense`. -/
structure CreateEventExpenseInput where
  eventId : String
  description : String
  amount : ℚ
  splits : List SplitInput
deriving DecidableEq

/-- The parsed input of `updateEventExpense`. -/
structure UpdateEventExpenseInput where
  id : String
  description : String
  amount : ℚ
  splits : List SplitInput
deriving DecidableEq

/-- A persisted expense row. -/
structure ExpenseRow where
  id : String
  eventId : String
  description : String
  amount : ℚ
  paidBy : String
deriving DecidableEq

/-- A persisted split row. -/
structure SplitRow where
  expenseId : String
  userId : String
  share : ℚ
deriving DecidableEq

/-- The two tables the mutations touch. -/
structure Db where
  expenses : List ExpenseRow
  expenseSplits : List SplitRow
deriving DecidableEq

/-- `createEventExpense`: after the authorization check, validate that the
splits add up to the total amount within `0.01`, then insert the expense row
and its split rows.  The validation throw happens before any insert. -/
def createEventExpense (authorized : Bool) (sessionUser newId : String)
    (input : CreateEventExpenseInput) (db : Db) : Except String ExpenseRow × Db :=
  if ¬ authorized then
    (Except.error "Not authorized to add expenses to this event", db)
  else
    let totalShares := (input.splits.map (fun s => s.share)).sum
    if tol < |totalShares - input.amount| then
      (Except.error "Splits must add up to the total amount", db)
    else
      let row : ExpenseRow :=
        ⟨newId, input.eventId, input.description, input.amount, sessionUser⟩
      (Except.ok row,
        ⟨db.expenses ++ [row],
          db.expenseSplits ++ input.splits.map (fun s => ⟨newId, s.userId, s.share⟩)⟩)

/-- `updateEventExpense`: after the authorization checks, validate the split
sum, then update the expense row in place and replace its split set
(delete-and-reinsert).  The validation throw happens before the update and
before the delete. -/
def updateEventExpense (authorized : Bool) (input : UpdateEventExpenseInput)
    (db : Db) : Except String ExpenseRow × Db :=
  if ¬ authorized then
    (Except.error "Expense not found or not authorized", db)
  else
    let totalShares := (input.splits.map (fun s => s.share)).sum
    if tol < |totalShares - input.amount| then
      (Except.error "Splits must add up to the total amount", db)
    else
      let updatedRow := fun (r : ExpenseRow) =>
        if r.id = input.id then
          { r with description := input.description, amount := input.amount }
        else r
      (match (db.expenses.filter (fun r => r.id = input.id)).head? with
        | some r => Except.ok (updatedRow r)
        | none => Except.ok ⟨input.id, "", input.description, input.amount, ""⟩,
        ⟨db.expenses.map updatedRow,
          (db.expenseSplits.filter (fun s => ¬ s.expenseId = input.id)) ++
            input.splits.map (fun s => ⟨input.id, s.userId, s.share⟩)⟩)

/-- C8 (confirmed): for an authorized caller, `createEventExpense` and
`updateEventExpense` throw `Splits must add up to the total amount` exactly
when the split shares differ from the amount by more than `0.01`; and when
that error is thrown, the database is unchanged — no expense row is created
or modified and no split rows are written or deleted. -/
theorem c8_split_sum_validation (cinput : CreateEventExpenseInput)
    (uinput : UpdateEventExpenseInput) (sessionUser newId : String) (db : Db) :
    ((createEventExpense true sessionUser newId cinput db).1 =
        Except.error "Splits must add up to the total amount" ↔
      tol < |(cinput.splits.map (fun s => s.share)).sum - cinput.amount|) ∧
    (tol < |(cinput.splits.map (fun s => s.share)).sum - cinput.amount| →
      (createEventExpense true sessionUser newId cinput db).2 = db) ∧
    ((updateEventExpense true uinput db).1 =
        Except.error "Splits must add up to the total amount" ↔
      tol < |(uinput.splits.map (fun s => s.share)).sum - uinput.amount|) ∧
    (tol < |(uinput.splits.map (fun s => s.share)).sum - uinput.amount| →
      (updateEventExpense true uinput db).2 = db) := by
  refine ⟨⟨?_, ?_⟩, ?_, ⟨?_, ?_⟩, ?_⟩
  · intro herr
    by_contra hcon
    rw [createEventExpense, if_neg (by simp), if_neg hcon] at herr
    exact Except.noConfusion herr
  · intro hcond
    rw [createEventExpense, if_neg (by simp), if_pos hcond]
  · intro hcond
    rw [createEventExpense, if_neg (by simp), if_pos hcond]
  · intro herr
    by_contra hcon
    rw [updateEventExpense, if_neg (by simp), if_neg hcon] at herr
    cases hh : (db.expenses.filter (fun r => r.id = uinput.id)).head? with
    | none =>
      rw [hh] at herr
      exact Except.noConfusion herr
    | some r =>
      rw [hh] at herr
      exact Except.noConfusion herr
  · intro hcond
    rw [updateEventExpense, if_neg (by simp), if_pos hcond]
  · intro hcond
    rw [updateEventExpense, if_neg (by simp), if_pos hcond]

/-! Concrete instances used to test the claims. -/

/-- The spec's example scenario: creditors A (+20) and B (+10), debtor C
(-30). -/
def ex9 : List Balance := [⟨"A", 20, 0, 20⟩, ⟨"B", 10, 0, 10⟩, ⟨"C", 0, 30, -30⟩]

/-- One creditor, one debtor, both at 10. -/
def exC1 : List Balance := [⟨"A", 10, 0, 10⟩, ⟨"B", 0, 10, -10⟩]

/-- Two balances inside the 0.01 tolerance band, summing to zero. -/
def exC4 : List Balance := [⟨"A", 1/200, 0, 1/200⟩, ⟨"B", 0, 1/200, -(1/200)⟩]

/-- A creditor/debtor pair with a balance of 1/3, which is not a 2-decimal
value. -/
def exC6 : List Balance := [⟨"A", 1/3, 0, 1/3⟩, ⟨"B", 0, 1/3, -(1/3)⟩]

/-- A user record for the aggregator examples. -/
def userA : User := ⟨"A", "Alice", none⟩

/-- Two expenses paid by A, each of amount 10, each split to A with a share
of 10.01 (within the per-expense 0.01 tolerance). -/
def exC3 : List Expense :=
  [⟨userA, 10, [⟨userA, 1001/100⟩]⟩, ⟨userA, 10, [⟨userA, 1001/100⟩]⟩]

theorem eval_ex9 : eventBalanceSettlements ex9 =
    ([⟨"C", "A", 20⟩, ⟨"C", "B", 10⟩], [⟨"C", 0, 30, 0⟩], 1) := by
  norm_num [eventBalanceSettlements, outerLoop, innerLoop, stepAmt, stepState,
    creditorsOf, debtorsOf, ex9, tol, List.insertionSort, List.orderedInsert,
    List.filter, min_def, abs, max_def]

theorem eval_exC1 : eventBalanceSettlements exC1 =
    ([⟨"B", "A", 10⟩], [⟨"B", 0, 10, 0⟩], 1) := by
  norm_num [eventBalanceSettlements, outerLoop, innerLoop, stepAmt, stepState,
    creditorsOf, debtorsOf, exC1, tol, List.insertionSort, List.orderedInsert,
    List.filter, min_def, abs, max_def]

theorem eval_exC4 : eventBalanceSettlements exC4 = ([], [], 0) := by
  norm_num [eventBalanceSettlements, outerLoop, innerLoop, stepAmt, stepState,
    creditorsOf, debtorsOf, exC4, tol, List.insertionSort, List.orderedInsert,
    List.filter, min_def, abs, max_def]

theorem eval_exC6 : eventBalanceSettlements exC6 =
    ([⟨"B", "A", 1/3⟩], [⟨"B", 0, 1/3, 0⟩], 1) := by
  norm_num [eventBalanceSettlements, outerLoop, innerLoop, stepAmt, stepState,
    creditorsOf, debtorsOf, exC6, tol, List.insertionSort, List.orderedInsert,
    List.filter, min_def, abs, max_def]

theorem eval_aggC3 : aggBalances exC3 =
    [("A", ⟨some userA, 20, 1001/50, 0⟩)] := by
  norm_num [aggBalances, collectIds, expenseIds, insertId, applyExpense,
    bumpPaid, bumpOwed, lookupB, setB, exC3, userA, List.foldl]

/-- C9 (confirmed): on the input with net balances A:+20, B:+10, C:-30, the
Planner emits exactly two settlements, in this order: C pays A 20, then C
pays B 10. -/
theorem c9_example_scenario :
    (eventBalanceSettlements ex9).1 = [⟨"C", "A", 20⟩, ⟨"C", "B", 10⟩] := by
  rw [eval_ex9]

/-- Counterexample to C1 as stated: on the zero-sum input A:+10, B:-10 with
distinct user ids, applying the emitted settlement with the claim's signs
(subtracting the amount from the paying user B and adding it to the
receiving user A) moves A to +20, far outside the 0.01 tolerance. -/
theorem c1_counterexample :
    (exC1.map (fun b => b.userId)).Nodup ∧
    (exC1.map (fun b => b.netBalance)).sum = 0 ∧
    ¬ (∀ b ∈ exC1, |claimedAppliedNet exC1 b| ≤ tol) := by
  refine ⟨by decide, by norm_num [exC1], ?_⟩
  intro h
  have h1 := h ⟨"A", 10, 0, 10⟩ (by rw [exC1]; exact List.mem_cons_self _ _)
  have hf : sumFromUser [⟨"B", "A", 10⟩] "A" = 0 := by
    rw [sumFromUser_cons, if_neg (by decide)]
    norm_num [sumFromUser]
  have ht : sumToUser [⟨"B", "A", 10⟩] "A" = 10 := by
    rw [sumToUser_cons, if_pos (by decide)]
    norm_num [sumToUser]
  have hval : claimedAppliedNet exC1 ⟨"A", 10, 0, 10⟩ = 20 := by
    rw [claimedAppliedNet, eval_exC1]
    show (10 : ℚ) - sumFromUser [⟨"B", "A", 10⟩] "A" +
      sumToUser [⟨"B", "A", 10⟩] "A" = 20
    rw [hf, ht]
    norm_num
  rw [hval] at h1
  norm_num [tol] at h1

theorem exC3_within_tol : ∀ e ∈ exC3, |sumShares e - e.amount| ≤ tol := by
  intro e he
  rw [exC3] at he
  rcases List.mem_cons.mp he with rfl | he
  · norm_num [sumShares, tol, abs_le]
  · rcases List.mem_cons.mp he with rfl | he
    · norm_num [sumShares, tol, abs_le]
    · simp at he

/-- Counterexample to C3 as stated: two expenses of amount 10 paid by A and
split to A with shares of 10.01 each satisfy the per-expense 0.01 tolerance,
yet the total paid (20) differs from the total owed (20.02), and the net
balance sum (-0.02) exceeds 0.01 times the participant count (one
participant). -/
theorem c3_counterexample :
    (∀ e ∈ exC3, |sumShares e - e.amount| ≤ tol) ∧
    ¬ (((getBalance exC3).map (fun b => b.totalPaid)).sum =
        ((getBalance exC3).map (fun b => b.totalOwed)).sum ∧
       |((getBalance exC3).map (fun b => b.netBalance)).sum| ≤
         tol * (getBalance exC3).length) := by
  refine ⟨exC3_within_tol, ?_⟩
  rintro ⟨heq, -⟩
  rw [getBalance_sum_paid, getBalance_sum_owed] at heq
  norm_num [exC3, sumShares] at heq

/-- Counterexample to C4 as stated: on the zero-sum input A:+0.005,
B:-0.005, both balances are inside the 0.01 tolerance band, so no settlement
is emitted; the settlement total 0 differs from the positive-balance total
0.005. -/
theorem c4_counterexample :
    (exC4.map (fun b => b.netBalance)).sum = 0 ∧
    ¬ (sumAmt (eventBalanceSettlements exC4).1 =
        ((exC4.filter (fun b => 0 < b.netBalance)).map (fun b => b.netBalance)).sum) := by
  refine ⟨by norm_num [exC4], ?_⟩
  rw [eval_exC4]
  norm_num [sumAmt, exC4, List.filter, tol]

/-- Counterexample to C5 as stated: after the Planner runs on A:+10, B:-10,
the input record of debtor B carries netBalance 0 instead of its original
-10 — the invocation mutated its input. -/
theorem c5_counterexample : finalBalances exC1 ≠ exC1 := by
  have hfind : List.find? (fun d => d.userId = "B") [(⟨"B", 0, 10, 0⟩ : Balance)] =
      some ⟨"B", 0, 10, 0⟩ := rfl
  have h2 : finalBalances exC1 = [⟨"A", 10, 0, 10⟩, ⟨"B", 0, 10, 0⟩] := by
    simp only [finalBalances, eval_exC1]
    simp only [exC1, List.map_cons, List.map_nil]
    norm_num [tol, hfind]
  intro h
  rw [h2, exC1] at h
  norm_num at h

/-- Counterexample to C6 as stated: on the input A:+1/3, B:-1/3 the Planner
emits a settlement of exactly 1/3, which is not representable with 2 decimal
places — the code never rounds settlement amounts. -/
theorem c6_counterexample :
    (eventBalanceSettlements exC6).1 = [⟨"B", "A", 1/3⟩] ∧
    ¬ ∃ k : ℤ, ((1 : ℚ)/3) = (k : ℚ) / 100 := by
  constructor
  · rw [eval_exC6]
  · rintro ⟨k, hk⟩
    have h2 : (3 * k : ℚ) = 100 := by
      field_simp at hk
      linarith
    have h3 : (3 * k : ℤ) = 100 := by exact_mod_cast h2
    omega

/-! Witnesses instantiating the universally quantified theorems at concrete
inputs. -/

theorem c1_witness :
    ((ex9.map (fun b => b.userId)).Nodup ∧
      (ex9.map (fun b => b.netBalance)).sum = 0) ∧
    ∀ b ∈ ex9, |appliedNet ex9 b| ≤ tol * ex9.length :=
  ⟨⟨by decide, by norm_num [ex9]⟩,
    c1_settlements_bound_residuals ex9 (by decide) (by norm_num [ex9])⟩

theorem c2_witness :
    lookupB (aggBalances exC3) "A" = some ⟨some userA, 20, 1001/50, 0⟩ ∧
    ((⟨some userA, 20, 1001/50, 0⟩ : BalanceRec).totalPaid = sumPaidBy exC3 "A" ∧
      (⟨some userA, 20, 1001/50, 0⟩ : BalanceRec).totalOwed = sumOwedBy exC3 "A") :=
  ⟨by rw [eval_aggC3]; norm_num [lookupB],
    (c2_aggregator_totals exC3).2.2.2.1 "A" _ (by rw [eval_aggC3]; norm_num [lookupB])⟩

theorem c3_witness :
    (∀ e ∈ exC3, |sumShares e - e.amount| ≤ tol) ∧
    (((getBalance exC3).map (fun b => b.totalPaid)).sum =
        (exC3.map (fun e => e.amount)).sum ∧
      ((getBalance exC3).map (fun b => b.totalOwed)).sum = (exC3.map sumShares).sum ∧
      |((getBalance exC3).map (fun b => b.totalOwed)).sum -
        ((getBalance exC3).map (fun b => b.totalPaid)).sum| ≤ tol * exC3.length ∧
      |((getBalance exC3).map (fun b => b.netBalance)).sum| ≤ tol * exC3.length) :=
  ⟨exC3_within_tol, c3_conservation_bounds exC3 exC3_within_tol⟩

theorem c4_witness :
    ((exC4.map (fun b => b.netBalance)).sum = 0) ∧
    sumAmt (eventBalanceSettlements exC4).1 ≤
      ((exC4.filter (fun b => 0 < b.netBalance)).map (fun b => b.netBalance)).sum :=
  ⟨by norm_num [exC4], c4_settlement_total_le_positive exC4 (by norm_num [exC4])⟩

theorem c5_witness :
    (exC1.map (fun b => b.userId)).Nodup ∧
    ((finalBalances exC1).length = exC1.length ∧
      ∀ (i : ℕ) (b b' : Balance), bget? exC1 i = some b →
        bget? (finalBalances exC1) i = some b' →
        b'.userId = b.userId ∧ b'.totalPaid = b.totalPaid ∧
        b'.totalOwed = b.totalOwed ∧
        b.netBalance ≤ b'.netBalance ∧ b'.netBalance ≤ max b.netBalance 0) :=
  ⟨by decide, c5_planner_mutation_profile exC1 (by decide)⟩

theorem c6_witness :
    (⟨"B", "A", (1 : ℚ)/3⟩ : Settlement) ∈ (eventBalanceSettlements exC6).1 ∧
    (tol ≤ (⟨"B", "A", (1 : ℚ)/3⟩ : Settlement).amount ∧
      0 < (⟨"B", "A", (1 : ℚ)/3⟩ : Settlement).amount ∧
      (⟨"B", "A", (1 : ℚ)/3⟩ : Settlement).fromUser ∈
        (debtorsOf exC6).map (fun b => b.userId) ∧
      (⟨"B", "A", (1 : ℚ)/3⟩ : Settlement).toUser ∈
        (creditorsOf exC6).map (fun b => b.userId) ∧
      (∀ u, (∀ b ∈ exC6, b.userId = u → |b.netBalance| ≤ tol) →
        (⟨"B", "A", (1 : ℚ)/3⟩ : Settlement).fromUser ≠ u ∧
        (⟨"B", "A", (1 : ℚ)/3⟩ : Settlement).toUser ≠ u)) := by
  have hmem : (⟨"B", "A", (1 : ℚ)/3⟩ : Settlement) ∈ (eventBalanceSettlements exC6).1 := by
    rw [eval_exC6]
    exact List.mem_cons_self _ _
  exact ⟨hmem, c6_settlement_amounts exC6 _ hmem⟩

theorem c7_witness :
    (∀ b ∈ exC4, ¬ tol < b.netBalance) ∧ (eventBalanceSettlements exC4).1 = [] := by
  have hyp : ∀ b ∈ exC4, ¬ tol < b.netBalance := by
    intro b hb
    rw [exC4] at hb
    rcases List.mem_cons.mp hb with rfl | hb
    · norm_num [tol]
    · rcases List.mem_cons.mp hb with rfl | hb
      · norm_num [tol]
      · simp at hb
  exact ⟨hyp, c7_empty_inputs.2 exC4 (Or.inl hyp)⟩

/-- Create-expense input whose single share of 5 misses the amount 10. -/
def exC8in : CreateEventExpenseInput := ⟨"e1", "dinner", 10, [⟨"A", 5⟩]⟩

/-- Update-expense input with the same mismatched share. -/
def exC8up : UpdateEventExpenseInput := ⟨"x1", "dinner", 10, [⟨"A", 5⟩]⟩

/-- An empty database. -/
def exDb : Db := ⟨[], []⟩

theorem c8_witness :
    tol < |((exC8in.splits.map (fun s => s.share)).sum) - exC8in.amount| ∧
    (createEventExpense true "u" "n" exC8in exDb).1 =
      Except.error "Splits must add up to the total amount" ∧
    (createEventExpense true "u" "n" exC8in exDb).2 = exDb := by
  have hcond : tol < |((exC8in.splits.map (fun s => s.share)).sum) - exC8in.amount| := by
    norm_num [exC8in, tol]
  obtain ⟨h1, h2, _, _⟩ := c8_split_sum_validation exC8in exC8up "u" "n" exDb
  exact ⟨hcond, h1.mpr hcond, h2 hcond⟩

theorem eval_getC3 : getBalance exC3 = [⟨some userA, 20, 1001/50, -(1/50)⟩] := by
  rw [getBalance, eval_aggC3]
  norm_num

theorem c10_witness :
    (⟨some userA, 20, 1001/50, -(1/50)⟩ : BalanceRec) ∈ getBalance exC3 ∧
    (⟨some userA, 20, 1001/50, -(1/50)⟩ : BalanceRec).user ≠ none := by
  have hmem : (⟨some userA, 20, 1001/50, -(1/50)⟩ : BalanceRec) ∈ getBalance exC3 := by
    rw [eval_getC3]
    exact List.mem_cons_self _ _
  exact ⟨hmem, c10_user_field_filled exC3 _ hmem⟩

/-- Any fuel exceeding the number of debtors not yet passed yields the same
result: the inner loop's cursor advances on every iteration except possibly
the last (which zeroes the remaining credit), so the fuel supplied by
`outerLoop` is never exhausted and the fuel-based transcription computes
exactly what the source `while` loop computes. -/
theorem innerLoop_fuel_irrelevant (c : Balance) :
    ∀ (f1 f2 : ℕ) (r : ℚ) (s : PlanState),
    (∀ b ∈ s.debtors, b.netBalance ≤ 0) →
    s.debtors.length - s.di < f1 → s.debtors.length - s.di < f2 →
    innerLoop c f1 r s = innerLoop c f2 r s := by
  intro f1
  induction f1 with
  | zero =>
    intro f2 r s _ hb1 _
    exact absurd hb1 (Nat.not_lt_zero _)
  | succ g1 ih =>
    intro f2 r s hnp hb1 hb2
    cases f2 with
    | zero => exact absurd hb2 (Nat.not_lt_zero _)
    | succ g2 =>
      by_cases hg : tol < r ∧ s.di < s.debtors.length
      · have h2 : s.di < s.debtors.length := hg.2
        have hstep1 : innerLoop c (g1 + 1) r s =
            innerLoop c g1 (r - stepAmt r s h2) (stepState c r s h2) := by
          rw [innerLoop, dif_pos hg]
        have hstep2 : innerLoop c (g2 + 1) r s =
            innerLoop c g2 (r - stepAmt r s h2) (stepState c r s h2) := by
          rw [innerLoop, dif_pos hg]
        have hd0 : (s.debtors.get ⟨s.di, h2⟩).netBalance ≤ 0 :=
          hnp _ (List.get_mem _ _ _)
        have habs : |(s.debtors.get ⟨s.di, h2⟩).netBalance| =
            -(s.debtors.get ⟨s.di, h2⟩).netBalance := abs_of_nonpos hd0
        have hnp' : ∀ b ∈ (stepState c r s h2).debtors, b.netBalance ≤ 0 := by
          intro b hb
          rw [stepState_debtors] at hb
          rcases List.mem_or_eq_of_mem_set hb with hb | hb
          · exact hnp b hb
          · rw [hb]
            have h3 := stepAmt_le_abs r s h2
            rw [habs] at h3
            show (s.debtors.get ⟨s.di, h2⟩).netBalance + stepAmt r s h2 ≤ 0
            linarith
        by_cases hadv : |(s.debtors.get ⟨s.di, h2⟩).netBalance + stepAmt r s h2| < tol
        · have hlen := stepState_length c r s h2
          have hdi : (stepState c r s h2).di = s.di + 1 := by
            rw [stepState_di, if_pos hadv]
          rw [hstep1, hstep2]
          exact ih g2 _ _ hnp' (by omega) (by omega)
        · have hamt : stepAmt r s h2 = r := by
            rcases le_or_lt |(s.debtors.get ⟨s.di, h2⟩).netBalance| r with hle | hlt
            · exfalso
              apply hadv
              rw [show stepAmt r s h2 = |(s.debtors.get ⟨s.di, h2⟩).netBalance| from
                min_eq_right hle, habs]
              simpa using tol_pos
            · exact min_eq_left (le_of_lt hlt)
          rw [hstep1, hstep2, hamt, sub_self,
            innerLoop_of_le c g1 0 _ (le_of_lt tol_pos),
            innerLoop_of_le c g2 0 _ (le_of_lt tol_pos)]
      · rw [innerLoop, dif_neg hg, innerLoop, dif_neg hg]

end Obscura
